import Mathlib

/-!
Verification of the weighted-graph engine of `src/main.js` (the final revision
of the demo, lines 380-911; the class `WeightedGraph` plus its two Dijkstra
queries and the JSON codec).

The JavaScript `Map` is modelled as an association list kept in insertion
order, which is exactly the observable semantics of a `Map`:
`set` on a present key replaces the value in place, `set` on an absent key
appends, `delete` removes the entry, and iteration follows that order.
JavaScript numbers are modelled as rationals, and the value `Infinity`
used by the Dijkstra code is modelled by `none : Option ℚ`.
-/

/-- Node metadata, from the `NodeMetadata` typedef of `src/main.js`:
integer grid coordinates plus the ready-for-pickup flag. -/
structure NodeMetadata where
  isReadyForPickup : Bool
  x : Int
  y : Int
deriving DecidableEq, Repr

abbrev Key := String

/-- An insertion-ordered map, the model of a JavaScript `Map`. -/
abbrev OMap (α β : Type) := List (α × β)

/-- `Map.get`. -/
def omapGet [DecidableEq α] : OMap α β → α → Option β
  | [], _ => none
  | (k, v) :: rest, k' => if k = k' then some v else omapGet rest k'

/-- `Map.set`: replace in place when the key is present, append otherwise. -/
def omapSet [DecidableEq α] : OMap α β → α → β → OMap α β
  | [], k', v' => [(k', v')]
  | (k, v) :: rest, k', v' =>
      if k = k' then (k, v') :: rest else (k, v) :: omapSet rest k' v'

/-- `Map.delete`: remove the entry when present, no-op otherwise. -/
def omapDelete [DecidableEq α] : OMap α β → α → OMap α β
  | [], _ => []
  | (k, v) :: rest, k' => if k = k' then rest else (k, v) :: omapDelete rest k'

/-- Mutation of the value stored under a key, the model of calling a mutating
method on `m.get(k)`.  When the key is absent, `m.get(k)` is `undefined` and
the JavaScript call either throws (plain access) or is skipped (optional
chaining `?.`); in both cases the map itself is left unchanged, which is what
the absent branch returns. -/
def omapUpdate [DecidableEq α] : OMap α β → α → (β → β) → OMap α β
  | [], _, _ => []
  | (k, v) :: rest, k', f => if k = k' then (k, f v) :: rest else (k, v) :: omapUpdate rest k' f

/-- `Map.has`. -/
def omapHas [DecidableEq α] (m : OMap α β) (k : α) : Bool := (omapGet m k).isSome

/-- The key list of a map, in insertion order (`Map.keys`). -/
def okeys (m : OMap α β) : List α := m.map Prod.fst

/-- Adjacency map of one node: neighbour key to edge weight. -/
abbrev AdjMap := OMap Key ℚ

/-- The graph state: `this.nodes` and `this.edges` of class `WeightedGraph`. -/
structure WeightedGraph where
  nodes : OMap Key NodeMetadata
  edges : OMap Key AdjMap
deriving DecidableEq, Repr

namespace WeightedGraph

/-- The `constructor`: both maps start empty. -/
def empty : WeightedGraph := ⟨[], []⟩

/-- `#nodeExist(key)`. -/
def nodeExist (g : WeightedGraph) (key : Key) : Bool := omapHas g.nodes key

/-- `addNode(key, metadata)`. -/
def addNode (g : WeightedGraph) (key : Key) (metadata : NodeMetadata) : WeightedGraph :=
  ⟨omapSet g.nodes key metadata, omapSet g.edges key []⟩

/-- `addEdge(start, end, weight)`. -/
def addEdge (g : WeightedGraph) (start end_ : Key) (weight : ℚ) : WeightedGraph :=
  if !(g.nodeExist start) || !(g.nodeExist end_) then g
  else
    let e1 := omapUpdate g.edges start (fun m => omapSet m end_ weight)
    { g with edges := omapUpdate e1 end_ (fun m => omapSet m start weight) }

/-- `deleteEdge(start, end)`. -/
def deleteEdge (g : WeightedGraph) (start end_ : Key) : WeightedGraph :=
  if !(g.nodeExist start) || !(g.nodeExist end_) then g
  else
    let e1 := omapUpdate g.edges start (fun m => omapDelete m end_)
    { g with edges := omapUpdate e1 end_ (fun m => omapDelete m start) }

/-- `deleteNode(key)`: purge `key` from every adjacency map of a neighbour of
`key` (`this.edges.get(neighbor)?.delete(key)` — optional chaining, hence a
no-op on a neighbour without an adjacency map), drop `key`'s own adjacency
map, then drop the node entry. -/
def deleteNode (g : WeightedGraph) (key : Key) : WeightedGraph :=
  if !(g.nodeExist key) then g
  else
    let edges1 :=
      if omapHas g.edges key then
        let neighbors := (omapGet g.edges key).getD []
        let purged := neighbors.foldl
          (fun es nb => omapUpdate es nb.1 (fun m => omapDelete m key)) g.edges
        omapDelete purged key
      else g.edges
    ⟨omapDelete g.nodes key, edges1⟩

/-- A `Partial<NodeMetadata>` argument of `updateNode`. -/
structure PartialMetadata where
  isReadyForPickup : Option Bool
  x : Option Int
  y : Option Int
deriving DecidableEq, Repr

/-- The object spread `{ ...old, ...metadata }` of `updateNode`. -/
def mergeMetadata (old : NodeMetadata) (p : PartialMetadata) : NodeMetadata :=
  ⟨p.isReadyForPickup.getD old.isReadyForPickup, p.x.getD old.x, p.y.getD old.y⟩

/-- `updateNode(key, metadata)`.  On an absent key `this.nodes.get(key)` is
`undefined` and the spread stores an object holding only the given fields; an
omitted ready flag then reads as a falsy value and omitted coordinates are
never read by the engine, so that branch is modelled by merging into a
default record. -/
def updateNode (g : WeightedGraph) (key : Key) (p : PartialMetadata) : WeightedGraph :=
  let old := (omapGet g.nodes key).getD ⟨false, 0, 0⟩
  { g with nodes := omapSet g.nodes key (mergeMetadata old p) }

end WeightedGraph

/-! ## The distance domain of the Dijkstra code

`distances` stores JavaScript numbers where `Infinity` marks an unknown
distance; `none` models `Infinity`.  The comparisons below implement the
JavaScript `<` and the addition `Infinity + w = Infinity`. -/
/-- A tentative distance: `none` is `Infinity`. -/
abbrev JDist := Option ℚ

/-- The strict comparison `a < b` on distances (`Infinity < Infinity` is false). -/
def jlt : JDist → JDist → Bool
  | some a, some b => a < b
  | some _, none => true
  | none, _ => false

/-- The non-strict order `a ≤ b` on distances. -/
def jle : JDist → JDist → Bool
  | some a, some b => a ≤ b
  | some _, none => true
  | none, some _ => false
  | none, none => true

/-- `a + w` where `a` may be `Infinity`. -/
def jadd : JDist → ℚ → JDist
  | some a, w => some (a + w)
  | none, _ => none

/-! ## The Pathfinder

`findCheapestPath` and `findClosestNReady` run the same loop over the same
state — `unvisited` (a `Set` iterated in insertion order, modelled as a list
of distinct keys), `distances` and `previous` — differing only in that
`findCheapestPath` breaks when the selected key is the destination and that
`findClosestNReady` never reads the predecessor map.  The loop is defined
once, with the break target as an `Option Key`; the graph is threaded through
the loop and returned, mirroring that every iteration dereferences `this`
and that no statement of either method assigns to `this.nodes` or
`this.edges`. -/
/-- The read of `distances.get(k)`.  Every key ever looked up is present
(`distances` is initialized over every node key and only those are relaxed),
so the `Infinity` default of the absent case is never exercised. -/
def dget (d : OMap Key JDist) (k : Key) : JDist := (omapGet d k).getD none

/-- `Array.from(unvisited).reduce((minNode, node) => distances.get(node) <
distances.get(minNode) ? node : minNode)`: the accumulator starts at the
first element and keeps the earliest key among ties. -/
def reduceMin (d : OMap Key JDist) (acc : Key) : List Key → Key
  | [] => acc
  | node :: rest => reduceMin d (if jlt (dget d node) (dget d acc) then node else acc) rest

/-- The adjacency list read `this.edges.get(curNode)`; the key is always a
node key and hence present, so the empty default of the absent case (where
the JavaScript would fail) is never exercised on well-formed graphs. -/
def adjList (g : WeightedGraph) (k : Key) : AdjMap := (omapGet g.edges k).getD []

/-- One step of the relaxation `forEach` body: for an adjacency entry
`(neighbor, weight)` of `curNode`, if the neighbour is unvisited and
`distances.get(curNode) + weight` improves on its tentative distance, update
its distance and predecessor. -/
def relaxStep (unvisited : List Key) (curNode : Key)
    (dp : OMap Key JDist × OMap Key Key) (e : Key × ℚ) :
    OMap Key JDist × OMap Key Key :=
  if unvisited.contains e.1 then
    let newDistance := jadd (dget dp.1 curNode) e.2
    if jlt newDistance (dget dp.1 e.1) then
      (omapSet dp.1 e.1 newDistance, omapSet dp.2 e.1 curNode)
    else dp
  else dp

/-- The whole relaxation `forEach` over `this.edges.get(curNode)`. -/
def relaxAll (g : WeightedGraph) (curNode : Key) (unvisited : List Key)
    (d : OMap Key JDist) (p : OMap Key Key) : OMap Key JDist × OMap Key Key :=
  (adjList g curNode).foldl (relaxStep unvisited curNode) (d, p)

/-- The `while (unvisited.size > 0)` loop shared by the two queries;
`stop?` is the destination of the `if (curNode === end) break;` of
`findCheapestPath`, absent for `findClosestNReady`.  Each iteration selects
the unvisited key of minimum tentative distance, relaxes its adjacency list
and removes it from the unvisited set.  The selected key is always a member
of the unvisited set, so each pass removes exactly one key and the loop runs
exactly as many passes as there are unvisited keys; the recursion is
bounded by that count, and the exhaustion branch (which returns the current
state like the `break`) is never reached from the count the callers pass
(`dijkstraLoop_fuel` below). -/
def dijkstraLoop (stop? : Option Key) (g : WeightedGraph) :
    Nat → List Key → OMap Key JDist → OMap Key Key →
    OMap Key JDist × OMap Key Key × WeightedGraph
  | _, [], d, p => (d, p, g)
  | 0, _ :: _, d, p => (d, p, g)
  | fuel + 1, h :: rest, d, p =>
      let curNode := reduceMin d h rest
      if stop? = some curNode then (d, p, g)
      else
        let dp := relaxAll g curNode (h :: rest) d p
        dijkstraLoop stop? g fuel ((h :: rest).erase curNode) dp.1 dp.2

/-- `new Map([...this.nodes].map(([k]) => [k, Infinity]))` followed by
`distances.set(start, 0)`. -/
def initDistances (g : WeightedGraph) (start : Key) : OMap Key JDist :=
  omapSet (g.nodes.map (fun kv => (kv.1, (none : JDist)))) start (some 0)

/-- The reconstruction loop `for (let at = end; at != null; at = previous.get(at))
path.push(at)`.  The source loop is unbounded; here it carries fuel, never
exhausted on states the algorithm produces (the predecessor chain of any key
is acyclic and no longer than the node count, proved below), and on
exhaustion it stops after pushing the current key. -/
def walkBack (previous : OMap Key Key) : Nat → Key → List Key
  | 0, at_ => [at_]
  | fuel + 1, at_ =>
      at_ :: (match omapGet previous at_ with
              | none => []
              | some u => walkBack previous fuel u)

/-- `findCheapestPath(start, end)`: `undefined` when either key is absent,
otherwise the Dijkstra run with early exit at `end` followed by the
predecessor walk and `path.reverse()`.  The second component is the graph
state after the call. -/
def findCheapestPath (g : WeightedGraph) (start end_ : Key) :
    Option (List Key) × WeightedGraph :=
  if !(g.nodeExist start) || !(g.nodeExist end_) then (none, g)
  else
    let u := okeys g.nodes
    let st := dijkstraLoop (some end_) g u.length u (initDistances g start) []
    let path := walkBack st.2.1 u.length end_
    (some path.reverse, st.2.2)

/-- The comparator `(a, b) => distances.get(a[0]) - distances.get(b[0])` of
the sort in `findClosestNReady`, as the total preorder it induces: `a` is
placed no later than `b` exactly when the subtraction is non-positive or is
`NaN` (`Infinity - Infinity`, which the ECMAScript `SortCompare` step treats
as `+0`, i.e. a tie) — that is exactly `jle` on the two distances. -/
def readyLE (d : OMap Key JDist) (a b : Key × NodeMetadata) : Prop :=
  jle (dget d a.1) (dget d b.1) = true

instance (d : OMap Key JDist) : DecidableRel (readyLE d) := fun a b => by
  unfold readyLE; infer_instance

/-- `findClosestNReady(start, n)`: `undefined` when `start` is absent,
otherwise the full Dijkstra run (no early exit), then
`Array.from(this.nodes).filter(([_, m]) => m.isReadyForPickup)`, the
distance sort, `slice(0, n)` and the projection to keys.  `sort` is required
by ECMAScript to be a stable sort consistent with the comparator, and every
stable sort under the comparator's total preorder produces the same list, so
the sort is modelled by the stable `insertionSort` under `readyLE`.  The
second component is the graph state after the call. -/
def findClosestNReady (g : WeightedGraph) (start : Key) (n : Nat) :
    Option (List Key) × WeightedGraph :=
  if !(g.nodeExist start) then (none, g)
  else
    let u := okeys g.nodes
    let st := dijkstraLoop none g u.length u (initDistances g start) []
    let readyNodes :=
      (g.nodes.filter (fun kv => kv.2.isReadyForPickup)).insertionSort (readyLE st.1)
    (some ((readyNodes.take n).map (fun kv => kv.1)), st.2.2)

/-! ## The Codec -/
/-- The payload shape `{ nodes, edges }` produced by `toJSON` and consumed by
`fromJSON`: the node mapping and the adjacency structure as ordered pair
sequences.  `JSON.stringify` / `JSON.parse` are lossless on this shape
(strings, numbers, booleans), so the codec is modelled on it directly. -/
structure GraphData where
  nodes : List (Key × NodeMetadata)
  edges : List (Key × List (Key × ℚ))
deriving DecidableEq, Repr

/-- The outcome of `JSON.parse` plus the two shape checks of `fromJSON`:
`malformed` — `JSON.parse(str)` throws; `badShape` — it parses but
`data.nodes` or `data.edges` is missing or not an array; `wellFormed` —
both checks pass and the pair lists are extracted. -/
inductive ParsedText where
  | malformed : ParsedText
  | badShape : ParsedText
  | wellFormed : GraphData → ParsedText

namespace WeightedGraph

/-- `toJSON()`: `Array.from(this.nodes.entries())` and the nested
`Array.from` over `this.edges`. -/
def toJSON (g : WeightedGraph) : GraphData := ⟨g.nodes, g.edges⟩

/-- `new Map(edges)` of the rebuild phase: sequential insertion of the
entry pairs into a fresh map. -/
def buildAdj (l : List (Key × ℚ)) : AdjMap :=
  l.foldl (fun m e => omapSet m e.1 e.2) []

/-- `fromJSON(str)`: on a parse failure or a shape-check failure the `catch`
only logs (`console.error`), leaving the state untouched; otherwise the two
maps are cleared, every node entry is re-inserted through `addNode`, and
every edge entry directly installs its adjacency map. -/
def fromJSON (g : WeightedGraph) : ParsedText → WeightedGraph
  | .malformed => g
  | .badShape => g
  | .wellFormed data =>
      let cleared : WeightedGraph := ⟨[], []⟩
      let g1 := data.nodes.foldl (fun acc kv => acc.addNode kv.1 kv.2) cleared
      { g1 with edges := data.edges.foldl (fun es kv => omapSet es kv.1 (buildAdj kv.2)) g1.edges }

end WeightedGraph

/-! ## Graph predicates

`lookup2 g a b` is the observable adjacency read `this.edges.get(a)?.get(b)`:
the weight of the directed entry `a → b`, absent when `a` has no adjacency
map or it holds no entry for `b`. -/
def lookup2 (g : WeightedGraph) (a b : Key) : Option ℚ :=
  match omapGet g.edges a with
  | none => none
  | some m => omapGet m b

/-- The symmetry invariant of §3 of the spec: the directed entry `a → b`
exists exactly when `b → a` does, with the identical weight. -/
def EdgeSym (g : WeightedGraph) : Prop := ∀ a b, lookup2 g a b = lookup2 g b a

/-- Symmetry, quantified over the stored entries only (hence decidable on a
concrete graph): every stored directed entry has its mirror entry. -/
def EdgeSymEntries (g : WeightedGraph) : Prop :=
  ∀ e ∈ g.edges, ∀ p ∈ e.2, lookup2 g p.1 e.1 = some p.2

/-- §3 of the spec: the graph owns an adjacency mapping for every node key. -/
def EdgesDom (g : WeightedGraph) : Prop := ∀ k ∈ okeys g.nodes, k ∈ okeys g.edges

/-- Each adjacency map carries distinct keys — automatic for a JavaScript
`Map`, a hypothesis on the association-list model. -/
def AdjNodup (g : WeightedGraph) : Prop := ∀ e ∈ g.edges, (okeys e.2).Nodup

/-- §3 of the spec: every key appearing in an adjacency map exists in the
node mapping. -/
def TargetsExist (g : WeightedGraph) : Prop :=
  ∀ e ∈ g.edges, ∀ p ∈ e.2, p.1 ∈ okeys g.nodes

/-- §1/§3 of the spec: every stored edge weight is non-negative. -/
def NonnegWeights (g : WeightedGraph) : Prop := ∀ e ∈ g.edges, ∀ p ∈ e.2, 0 ≤ p.2

/-- The well-formedness a `WeightedGraph` value enjoys by construction in the
source (`Map` keys are distinct) together with the structural invariants of
§3 of the spec. -/
def GraphWF (g : WeightedGraph) : Prop :=
  (okeys g.nodes).Nodup ∧ (okeys g.edges).Nodup ∧ AdjNodup g ∧ EdgesDom g ∧ TargetsExist g

instance (g : WeightedGraph) : Decidable (EdgeSymEntries g) := by
  unfold EdgeSymEntries; infer_instance

instance (g : WeightedGraph) : Decidable (EdgesDom g) := by
  unfold EdgesDom; infer_instance

instance (g : WeightedGraph) : Decidable (AdjNodup g) := by
  unfold AdjNodup; infer_instance

instance (g : WeightedGraph) : Decidable (TargetsExist g) := by
  unfold TargetsExist; infer_instance

instance (g : WeightedGraph) : Decidable (NonnegWeights g) := by
  unfold NonnegWeights; infer_instance

instance (g : WeightedGraph) : Decidable (GraphWF g) := by
  unfold GraphWF; infer_instance

/-! ## Store operation sequences and walks -/
/-- One edge-mutating Store call, for claims over call sequences. -/
inductive EdgeOp where
  | add : Key → Key → ℚ → EdgeOp
  | del : Key → Key → EdgeOp

def applyEdgeOp (g : WeightedGraph) : EdgeOp → WeightedGraph
  | .add s e w => g.addEdge s e w
  | .del s e => g.deleteEdge s e

def applyEdgeOps (g : WeightedGraph) (ops : List EdgeOp) : WeightedGraph :=
  ops.foldl applyEdgeOp g

/-- The graph states reachable from a fresh `WeightedGraph` through the Store
operations of §4.1. -/
inductive Reached : WeightedGraph → Prop where
  | start : Reached WeightedGraph.empty
  | addNode {g} (k : Key) (m : NodeMetadata) : Reached g → Reached (g.addNode k m)
  | addEdge {g} (s e : Key) (w : ℚ) : Reached g → Reached (g.addEdge s e w)
  | deleteEdge {g} (s e : Key) : Reached g → Reached (g.deleteEdge s e)
  | deleteNode {g} (k : Key) : Reached g → Reached (g.deleteNode k)
  | updateNode {g} (k : Key) (p : WeightedGraph.PartialMetadata) :
      Reached g → Reached (g.updateNode k p)

/-- A walk of the graph: a nonempty key sequence whose consecutive pairs are
stored adjacency entries. -/
def IsWalk (g : WeightedGraph) : List Key → Prop
  | [] => False
  | [_] => True
  | x :: y :: rest => (lookup2 g x y).isSome = true ∧ IsWalk g (y :: rest)

/-- The total edge weight along a key sequence. -/
def walkCost (g : WeightedGraph) : List Key → ℚ
  | x :: y :: rest => (lookup2 g x y).getD 0 + walkCost g (y :: rest)
  | _ => 0

/-- A path from `s` to `t`: a walk starting at `s` and ending at `t`. -/
def IsPathFrom (g : WeightedGraph) (s t : Key) (p : List Key) : Prop :=
  IsWalk g p ∧ p.head? = some s ∧ p.getLast? = some t

/-- The chain the reconstruction loop of `findCheapestPath` reads off the
`previous` map: `PrevChain prev v p` says that starting at `v` and following
`previous.get` until it is undefined visits exactly the reverse of `p`. -/
inductive PrevChain (prev : OMap Key Key) : Key → List Key → Prop where
  | base (v : Key) (h : omapGet prev v = none) : PrevChain prev v [v]
  | step (v u : Key) (p : List Key) (h : omapGet prev v = some u)
      (hp : PrevChain prev u p) : PrevChain prev v (p ++ [v])

/-- The three-node scenario of §8 of the spec: `A(0,0,ready=false)`,
`B(1,0,ready=true)`, `C(2,0,ready=true)`, edges A-B 3, B-C 4, A-C 10. -/
def gABC : WeightedGraph :=
  ((((((WeightedGraph.empty.addNode "A" ⟨false, 0, 0⟩).addNode "B" ⟨true, 1, 0⟩).addNode "C"
      ⟨true, 2, 0⟩).addEdge "A" "B" 3).addEdge "B" "C" 4).addEdge "A" "C" 10)

/-- Two ready nodes joined by a weight-0 edge, the node `y` inserted before
`s`: both end at distance 0 from `s`, a tie the stable sort leaves in
insertion order. -/
def gTie : WeightedGraph :=
  (((WeightedGraph.empty.addNode "y" ⟨true, 0, 0⟩).addNode "s" ⟨true, 1, 0⟩).addEdge "s" "y" 0)

/-- Two nodes and no edge: `t` is unreachable from `s`. -/
def gDisc : WeightedGraph :=
  ((WeightedGraph.empty.addNode "s" ⟨true, 0, 0⟩).addNode "t" ⟨true, 1, 0⟩)

/-- The invariants every Store-reachable state enjoys: distinct `Map` keys
throughout, and adjacency maps exist only for node keys. -/
def StoreInv (g : WeightedGraph) : Prop :=
  (okeys g.nodes).Nodup ∧ (okeys g.edges).Nodup ∧ AdjNodup g ∧
    (∀ k ∈ okeys g.edges, k ∈ okeys g.nodes)

/-- The loop invariant of the shared Dijkstra loop, holding at the boundary
between iterations: `u` is the unvisited key set, `d` the tentative
distances, `p` the predecessor map, `s` the source. -/
structure DijkInv (g : WeightedGraph) (s : Key) (u : List Key)
    (d : OMap Key JDist) (p : OMap Key Key) : Prop where
  uSub : ∀ k ∈ u, k ∈ okeys g.nodes
  uNodup : u.Nodup
  dDom : ∀ k ∈ okeys g.nodes, (omapGet d k).isSome = true
  dStart : dget d s = some 0
  dNonneg : ∀ v a, dget d v = some a → 0 ≤ a
  ordS : ∀ x ∈ okeys g.nodes, x ∉ u → ∀ y ∈ u, jle (dget d x) (dget d y) = true
  relaxed : ∀ x ∈ okeys g.nodes, x ∉ u →
      ∀ e ∈ adjList g x, jle (dget d e.1) (jadd (dget d x) e.2) = true
  prevInv : ∀ v q, omapGet p v = some q →
      q ∈ okeys g.nodes ∧ q ∉ u ∧
      ∃ w, omapGet (adjList g q) v = some w ∧ dget d v = jadd (dget d q) w ∧
        (dget d q).isSome = true
  chainInv : ∀ v a, dget d v = some a →
      ∃ ch, PrevChain p v ch ∧ ch.head? = some s ∧ IsWalk g ch ∧ walkCost g ch = a ∧
        ch.length + u.length ≤ (okeys g.nodes).length + 1

/-- The distance map computed by the full (no early exit) Dijkstra run of
`findClosestNReady`. -/
def closestDistances (g : WeightedGraph) (start : Key) : OMap Key JDist :=
  (dijkstraLoop none g (okeys g.nodes).length (okeys g.nodes)
    (initDistances g start) []).1

/-- The lightweight reachability invariant behind the unreachable case of
`findCheapestPath`: every finite tentative distance is witnessed by a path
from the source, and the predecessor map only holds keys with finite
tentative distance.  It needs no sign assumption on the weights. -/
def ReachInv (g : WeightedGraph) (s : Key) (d : OMap Key JDist)
    (p : OMap Key Key) : Prop :=
  (∀ v a, dget d v = some a → ∃ q, IsPathFrom g s v q) ∧
  (∀ v q, omapGet p v = some q → (dget d v).isSome = true)

theorem jle_refl (a : JDist) : jle a a = true := by
  cases a <;> simp [jle]

theorem jle_trans {a b c : JDist} (h1 : jle a b = true) (h2 : jle b c = true) :
    jle a c = true := by
  cases a <;> cases b <;> cases c <;> simp_all [jle] <;> linarith

theorem jle_total (a b : JDist) : jle a b = true ∨ jle b a = true := by
  cases a <;> cases b <;> simp [jle] <;> exact le_total _ _

theorem not_jlt_iff_jle {a b : JDist} : jlt a b = false ↔ jle b a = true := by
  cases a <;> cases b <;> simp [jlt, jle]

theorem jlt_imp_jle {a b : JDist} (h : jlt a b = true) : jle a b = true := by
  cases a <;> cases b <;> simp_all [jlt, jle] <;> linarith

theorem jle_jadd (a : JDist) {w : ℚ} (hw : 0 ≤ w) : jle a (jadd a w) = true := by
  cases a <;> simp [jle, jadd] <;> linarith

theorem jadd_mono {a b : JDist} (w : ℚ) (h : jle a b = true) :
    jle (jadd a w) (jadd b w) = true := by
  cases a <;> cases b <;> simp_all [jle, jadd]

theorem jle_antisymm {a b : JDist} (h1 : jle a b = true) (h2 : jle b a = true) : a = b := by
  cases a <;> cases b <;> simp_all [jle]
  linarith

theorem reduceMin_mem (d : OMap Key JDist) (acc : Key) (l : List Key) :
    reduceMin d acc l = acc ∨ reduceMin d acc l ∈ l := by
  induction l generalizing acc with
  | nil => exact Or.inl rfl
  | cons node rest ih =>
      rcases ih (if jlt (dget d node) (dget d acc) then node else acc) with h | h
      · rw [reduceMin, h]
        split
        · exact Or.inr (List.mem_cons_self _ _)
        · exact Or.inl rfl
      · exact Or.inr (List.mem_cons_of_mem _ (by rw [reduceMin]; exact h))

/-! ## Ordered-map lemmas -/
theorem omapGet_set_self [DecidableEq α] (m : OMap α β) (k : α) (v : β) :
    omapGet (omapSet m k v) k = some v := by
  induction m with
  | nil => simp [omapSet, omapGet]
  | cons kv rest ih =>
      obtain ⟨k', v'⟩ := kv
      by_cases h : k' = k <;> simp [omapSet, omapGet, h, ih]

theorem omapGet_set_ne [DecidableEq α] (m : OMap α β) {k k' : α} (v : β) (h : k' ≠ k) :
    omapGet (omapSet m k v) k' = omapGet m k' := by
  have hkk : k ≠ k' := fun hh => h hh.symm
  induction m with
  | nil => simp [omapSet, omapGet, hkk]
  | cons kv rest ih =>
      obtain ⟨a, b⟩ := kv
      by_cases ha : a = k
      · rw [ha]
        simp [omapSet, omapGet, hkk]
      · simp only [omapSet, if_neg ha]
        by_cases hb : a = k' <;> simp [omapGet, hb, ih]

theorem omapGet_delete_ne [DecidableEq α] (m : OMap α β) {k k' : α} (h : k' ≠ k) :
    omapGet (omapDelete m k) k' = omapGet m k' := by
  have hkk : k ≠ k' := fun hh => h hh.symm
  induction m with
  | nil => simp [omapDelete]
  | cons kv rest ih =>
      obtain ⟨a, b⟩ := kv
      by_cases ha : a = k
      · rw [ha]
        simp [omapDelete, omapGet, hkk]
      · by_cases hb : a = k' <;> simp [omapDelete, omapGet, ha, hb, ih, h]

theorem omapGet_update_self [DecidableEq α] (m : OMap α β) (k : α) (f : β → β) :
    omapGet (omapUpdate m k f) k = (omapGet m k).map f := by
  induction m with
  | nil => simp [omapUpdate, omapGet]
  | cons kv rest ih =>
      obtain ⟨a, b⟩ := kv
      by_cases ha : a = k <;> simp [omapUpdate, omapGet, ha, ih]

theorem omapGet_update_ne [DecidableEq α] (m : OMap α β) {k k' : α} (f : β → β) (h : k' ≠ k) :
    omapGet (omapUpdate m k f) k' = omapGet m k' := by
  have hkk : k ≠ k' := fun hh => h hh.symm
  induction m with
  | nil => simp [omapUpdate]
  | cons kv rest ih =>
      obtain ⟨a, b⟩ := kv
      by_cases ha : a = k
      · rw [ha]
        simp [omapUpdate, omapGet, hkk]
      · by_cases hb : a = k' <;> simp [omapUpdate, omapGet, ha, hb, ih, h]

theorem okeys_update [DecidableEq α] (m : OMap α β) (k : α) (f : β → β) :
    okeys (omapUpdate m k f) = okeys m := by
  induction m with
  | nil => simp [omapUpdate]
  | cons kv rest ih =>
      obtain ⟨a, b⟩ := kv
      by_cases ha : a = k
      · simp [omapUpdate, okeys, ha]
      · simp only [omapUpdate, if_neg ha, okeys, List.map_cons, List.cons.injEq, true_and]
        exact ih

theorem mem_okeys_iff [DecidableEq α] (m : OMap α β) (k : α) :
    k ∈ okeys m ↔ (omapGet m k).isSome := by
  induction m with
  | nil => simp [okeys, omapGet]
  | cons kv rest ih =>
      obtain ⟨a, b⟩ := kv
      show k ∈ a :: okeys rest ↔ _
      rw [List.mem_cons, ih]
      by_cases ha : a = k
      · simp [omapGet, ha]
      · simp [omapGet, ha]
        intro h
        exact absurd (Eq.symm h) ha

theorem omapGet_eq_none_iff [DecidableEq α] (m : OMap α β) (k : α) :
    omapGet m k = none ↔ k ∉ okeys m := by
  rw [mem_okeys_iff]
  cases omapGet m k <;> simp

theorem omapGet_mem [DecidableEq α] {m : OMap α β} {k : α} {v : β}
    (h : omapGet m k = some v) : (k, v) ∈ m := by
  induction m with
  | nil => simp [omapGet] at h
  | cons kv rest ih =>
      obtain ⟨a, b⟩ := kv
      by_cases ha : a = k
      · subst ha
        simp [omapGet] at h
        simp [h]
      · simp [omapGet, ha] at h
        exact List.mem_cons_of_mem _ (ih h)

theorem omapGet_eq_of_mem [DecidableEq α] {m : OMap α β} {k : α} {v : β}
    (hnd : (okeys m).Nodup) (h : (k, v) ∈ m) : omapGet m k = some v := by
  induction m with
  | nil => simp at h
  | cons kv rest ih =>
      obtain ⟨a, b⟩ := kv
      simp only [okeys, List.map_cons, List.nodup_cons] at hnd
      rcases List.mem_cons.1 h with h | h
      · injection h with h1 h2
        rw [← h1, ← h2]
        simp [omapGet]
      · have hak : a ≠ k := by
          intro hh
          refine hnd.1 ?_
          rw [hh]
          exact List.mem_map.2 ⟨(k, v), h, rfl⟩
        simp only [omapGet, if_neg hak]
        exact ih hnd.2 h

theorem omapGet_delete_self [DecidableEq α] (m : OMap α β) (k : α)
    (hnd : (okeys m).Nodup) : omapGet (omapDelete m k) k = none := by
  induction m with
  | nil => simp [omapDelete, omapGet]
  | cons kv rest ih =>
      obtain ⟨a, b⟩ := kv
      simp only [okeys, List.map_cons, List.nodup_cons] at hnd
      by_cases ha : a = k
      · subst ha
        simp only [omapDelete, if_pos rfl]
        rw [omapGet_eq_none_iff]
        exact hnd.1
      · simp [omapDelete, omapGet, ha, ih hnd.2]

theorem mem_omapSet [DecidableEq α] {m : OMap α β} {k : α} {v : β} {p : α × β}
    (h : p ∈ omapSet m k v) : p ∈ m ∨ p = (k, v) := by
  induction m with
  | nil => simpa [omapSet] using h
  | cons kv rest ih =>
      obtain ⟨a, b⟩ := kv
      by_cases ha : a = k
      · subst ha
        simp only [omapSet, if_pos rfl] at h
        rcases List.mem_cons.1 h with h | h
        · exact Or.inr (by simp [h])
        · exact Or.inl (List.mem_cons_of_mem _ h)
      · simp only [omapSet, if_neg ha] at h
        rcases List.mem_cons.1 h with h | h
        · exact Or.inl (by simp [h])
        · rcases ih h with h | h
          · exact Or.inl (List.mem_cons_of_mem _ h)
          · exact Or.inr h

theorem mem_omapUpdate [DecidableEq α] {m : OMap α β} {k : α} {f : β → β} {p : α × β}
    (h : p ∈ omapUpdate m k f) : p ∈ m ∨ ∃ v, (k, v) ∈ m ∧ p = (k, f v) := by
  induction m with
  | nil => simpa [omapUpdate] using h
  | cons kv rest ih =>
      obtain ⟨a, b⟩ := kv
      by_cases ha : a = k
      · subst ha
        simp only [omapUpdate, if_pos rfl] at h
        rcases List.mem_cons.1 h with h | h
        · exact Or.inr ⟨b, List.mem_cons_self _ _, by simp [h]⟩
        · exact Or.inl (List.mem_cons_of_mem _ h)
      · simp only [omapUpdate, if_neg ha] at h
        rcases List.mem_cons.1 h with h | h
        · exact Or.inl (by simp [h])
        · rcases ih h with h | ⟨v, hv, hp⟩
          · exact Or.inl (List.mem_cons_of_mem _ h)
          · exact Or.inr ⟨v, List.mem_cons_of_mem _ hv, hp⟩

theorem mem_omapDelete [DecidableEq α] {m : OMap α β} {k : α} {p : α × β}
    (h : p ∈ omapDelete m k) : p ∈ m := by
  induction m with
  | nil => simpa [omapDelete] using h
  | cons kv rest ih =>
      obtain ⟨a, b⟩ := kv
      by_cases ha : a = k
      · subst ha
        simp only [omapDelete, if_pos rfl] at h
        exact List.mem_cons_of_mem _ h
      · simp only [omapDelete, if_neg ha] at h
        rcases List.mem_cons.1 h with h | h
        · rw [h]
          exact List.mem_cons_self _ _
        · exact List.mem_cons_of_mem _ (ih h)

theorem okeys_set_mem_iff [DecidableEq α] (m : OMap α β) (k a : α) (v : β) :
    a ∈ okeys (omapSet m k v) ↔ a ∈ okeys m ∨ a = k := by
  constructor
  · intro h
    rw [mem_okeys_iff] at h
    by_cases hak : a = k
    · exact Or.inr hak
    · rw [omapGet_set_ne m v hak, ← mem_okeys_iff] at h
      exact Or.inl h
  · intro h
    rw [mem_okeys_iff]
    rcases h with h | h
    · by_cases hak : a = k
      · subst hak; simp [omapGet_set_self]
      · rw [omapGet_set_ne m v hak, ← mem_okeys_iff]; exact h
    · subst h; simp [omapGet_set_self]

theorem okeys_set_nodup [DecidableEq α] {m : OMap α β} (k : α) (v : β)
    (hnd : (okeys m).Nodup) : (okeys (omapSet m k v)).Nodup := by
  induction m with
  | nil => simp [omapSet, okeys]
  | cons kv rest ih =>
      obtain ⟨a, b⟩ := kv
      simp only [okeys, List.map_cons, List.nodup_cons] at hnd
      by_cases ha : a = k
      · subst ha
        simpa [omapSet, okeys] using hnd
      · simp only [omapSet, if_neg ha, okeys, List.map_cons, List.nodup_cons]
        refine ⟨fun hmem => ?_, ih hnd.2⟩
        rcases (okeys_set_mem_iff rest k a v).1 hmem with h | h
        · exact hnd.1 h
        · exact ha h

theorem okeys_delete_mem [DecidableEq α] {m : OMap α β} {k a : α}
    (h : a ∈ okeys (omapDelete m k)) : a ∈ okeys m := by
  rw [mem_okeys_iff] at h ⊢
  by_cases hak : a = k
  · subst hak
    induction m with
    | nil => simp [omapDelete, omapGet] at h
    | cons kv rest ih =>
        obtain ⟨x, y⟩ := kv
        by_cases hx : x = a
        · simp [omapGet, hx]
        · simp only [omapDelete, if_neg hx] at h
          simp [omapGet, hx] at h ⊢
          exact ih h
  · rwa [omapGet_delete_ne m hak] at h

theorem okeys_delete_nodup [DecidableEq α] {m : OMap α β} (k : α)
    (hnd : (okeys m).Nodup) : (okeys (omapDelete m k)).Nodup := by
  induction m with
  | nil => simp [omapDelete, okeys]
  | cons kv rest ih =>
      obtain ⟨a, b⟩ := kv
      simp only [okeys, List.map_cons, List.nodup_cons] at hnd
      by_cases ha : a = k
      · simp only [omapDelete, if_pos ha]
        exact hnd.2
      · simp only [omapDelete, if_neg ha, okeys, List.map_cons, List.nodup_cons]
        exact ⟨fun hmem => hnd.1 (okeys_delete_mem hmem), ih hnd.2⟩

theorem omapSet_append [DecidableEq α] {m : OMap α β} {k : α} (v : β)
    (h : k ∉ okeys m) : omapSet m k v = m ++ [(k, v)] := by
  induction m with
  | nil => simp [omapSet]
  | cons kv rest ih =>
      obtain ⟨a, b⟩ := kv
      simp only [okeys, List.map_cons, List.mem_cons] at h
      push_neg at h
      have hak : a ≠ k := fun hh => h.1 (Eq.symm hh)
      simp only [omapSet, if_neg hak, List.cons_append, List.cons.injEq, true_and]
      exact ih h.2

theorem edgeSym_of_entries {g : WeightedGraph} (h : EdgeSymEntries g) : EdgeSym g := by
  intro a b
  rcases hma : omapGet g.edges a with _ | ma
  · rcases hmb : omapGet g.edges b with _ | mb
    · simp [lookup2, hma, hmb]
    · rcases hw : omapGet mb a with _ | w
      · simp [lookup2, hma, hmb, hw]
      · have := h (b, mb) (omapGet_mem hmb) (a, w) (omapGet_mem hw)
        simp only [lookup2, hma] at this
        exact absurd this (by simp)
  · rcases hw : omapGet ma b with _ | w
    · rcases hmb : omapGet g.edges b with _ | mb
      · simp [lookup2, hma, hmb, hw]
      · rcases hw' : omapGet mb a with _ | w'
        · simp [lookup2, hma, hmb, hw, hw']
        · have := h (b, mb) (omapGet_mem hmb) (a, w') (omapGet_mem hw')
          simp only [lookup2, hma] at this
          rw [hw] at this
          exact absurd this (by simp)
    · have hyp := h (a, ma) (omapGet_mem hma) (b, w) (omapGet_mem hw)
      simp only [lookup2, hma] at hyp ⊢
      rw [hw]
      exact hyp.symm

theorem addEdge_of_absent {g : WeightedGraph} {s e : Key} (w : ℚ)
    (h : g.nodeExist s = false ∨ g.nodeExist e = false) : g.addEdge s e w = g := by
  rcases h with h | h <;> simp [WeightedGraph.addEdge, h]

theorem deleteEdge_of_absent {g : WeightedGraph} {s e : Key}
    (h : g.nodeExist s = false ∨ g.nodeExist e = false) : g.deleteEdge s e = g := by
  rcases h with h | h <;> simp [WeightedGraph.deleteEdge, h]

theorem nodeExist_mem_edges {g : WeightedGraph} {k : Key} (hdom : EdgesDom g)
    (h : g.nodeExist k = true) : ∃ m, omapGet g.edges k = some m := by
  have hk : k ∈ okeys g.nodes := by
    rw [mem_okeys_iff]
    simpa [WeightedGraph.nodeExist, omapHas] using h
  have hmem := hdom k hk
  rw [mem_okeys_iff] at hmem
  exact Option.isSome_iff_exists.1 hmem

theorem lookup2_addEdge {g : WeightedGraph} {s e : Key} (w : ℚ) (hdom : EdgesDom g)
    (hs : g.nodeExist s = true) (he : g.nodeExist e = true) (a b : Key) :
    lookup2 (g.addEdge s e w) a b =
      if (a = s ∧ b = e) ∨ (a = e ∧ b = s) then some w else lookup2 g a b := by
  obtain ⟨ms, hms⟩ := nodeExist_mem_edges hdom hs
  obtain ⟨me, hme⟩ := nodeExist_mem_edges hdom he
  have hguard : (!g.nodeExist s || !g.nodeExist e) = false := by simp [hs, he]
  have hedges : (g.addEdge s e w).edges =
      omapUpdate (omapUpdate g.edges s (fun m => omapSet m e w)) e (fun m => omapSet m s w) := by
    simp [WeightedGraph.addEdge, hguard]
  by_cases hae : a = e
  · by_cases hes : e = s
    · have hsa : s = a := by rw [← hes, ← hae]
      have hms' : omapGet g.edges e = some ms := by rw [hes]; exact hms
      have hgete : omapGet (omapUpdate g.edges s (fun m => omapSet m e w)) e
          = some (omapSet ms e w) := by
        rw [← hes, omapGet_update_self, hms', Option.map_some']
      have hga : omapGet (g.addEdge s e w).edges a = some (omapSet (omapSet ms e w) s w) := by
        rw [hedges, hae, omapGet_update_self, hgete, Option.map_some']
      by_cases hb : b = e
      · have hbs : b = s := by rw [hb, hes]
        have : omapGet (omapSet (omapSet ms e w) s w) b = some w := by
          rw [hbs, omapGet_set_self]
        have hcond : ((a = s ∧ b = e) ∨ (a = e ∧ b = s)) := Or.inl ⟨by rw [hae, hes], hb⟩
        simp only [lookup2, hga, this, if_pos hcond]
      · have hbs : b ≠ s := fun hh => hb (by rw [hh, ← hes])
        have : omapGet (omapSet (omapSet ms e w) s w) b = omapGet ms b := by
          rw [omapGet_set_ne _ _ hbs, omapGet_set_ne _ _ hb]
        have hcond : ¬((a = s ∧ b = e) ∨ (a = e ∧ b = s)) := by
          simp [hb, hbs]
        simp only [lookup2, hga, this, if_neg hcond]
        rw [hae, hes, hms]
    · -- a = e, e ≠ s
      have hgete : omapGet (omapUpdate g.edges s (fun m => omapSet m e w)) e
          = some me := by
        rw [omapGet_update_ne _ _ hes, hme]
      have hga : omapGet (g.addEdge s e w).edges a = some (omapSet me s w) := by
        rw [hedges, hae, omapGet_update_self, hgete, Option.map_some']
      by_cases hbs : b = s
      · have : omapGet (omapSet me s w) b = some w := by rw [hbs, omapGet_set_self]
        have hcond : ((a = s ∧ b = e) ∨ (a = e ∧ b = s)) := Or.inr ⟨hae, hbs⟩
        simp only [lookup2, hga, this, if_pos hcond]
      · have : omapGet (omapSet me s w) b = omapGet me b := omapGet_set_ne _ _ hbs
        have hcond : ¬((a = s ∧ b = e) ∨ (a = e ∧ b = s)) := by
          intro hc
          rcases hc with ⟨h1, _⟩ | ⟨_, h2⟩
          · exact hes (by rw [← hae, h1])
          · exact hbs h2
        simp only [lookup2, hga, this, if_neg hcond]
        rw [hae, hme]
  · by_cases has : a = s
    · -- a = s, a ≠ e
      have hgets : omapGet (omapUpdate g.edges s (fun m => omapSet m e w)) a
          = some (omapSet ms e w) := by
        rw [has, omapGet_update_self, hms, Option.map_some']
      have hga : omapGet (g.addEdge s e w).edges a = some (omapSet ms e w) := by
        rw [hedges, omapGet_update_ne _ _ hae, hgets]
      by_cases hb : b = e
      · have : omapGet (omapSet ms e w) b = some w := by rw [hb, omapGet_set_self]
        have hcond : ((a = s ∧ b = e) ∨ (a = e ∧ b = s)) := Or.inl ⟨has, hb⟩
        simp only [lookup2, hga, this, if_pos hcond]
      · have : omapGet (omapSet ms e w) b = omapGet ms b := omapGet_set_ne _ _ hb
        have hcond : ¬((a = s ∧ b = e) ∨ (a = e ∧ b = s)) := by
          intro hc
          rcases hc with ⟨_, h2⟩ | ⟨h1, _⟩
          · exact hb h2
          · exact hae h1
        simp only [lookup2, hga, this, if_neg hcond]
        rw [has, hms]
    · -- a ∉ {s, e}
      have hga : omapGet (g.addEdge s e w).edges a = omapGet g.edges a := by
        rw [hedges, omapGet_update_ne _ _ hae, omapGet_update_ne _ _ has]
      have hcond : ¬((a = s ∧ b = e) ∨ (a = e ∧ b = s)) := by
        intro hc
        rcases hc with ⟨h1, _⟩ | ⟨h1, _⟩
        · exact has h1
        · exact hae h1
      simp only [lookup2, hga, if_neg hcond]

theorem lookup2_deleteEdge {g : WeightedGraph} {s e : Key} (hdom : EdgesDom g)
    (had : AdjNodup g)
    (hs : g.nodeExist s = true) (he : g.nodeExist e = true) (a b : Key) :
    lookup2 (g.deleteEdge s e) a b =
      if (a = s ∧ b = e) ∨ (a = e ∧ b = s) then none else lookup2 g a b := by
  obtain ⟨ms, hms⟩ := nodeExist_mem_edges hdom hs
  obtain ⟨me, hme⟩ := nodeExist_mem_edges hdom he
  have hmsnd : (okeys ms).Nodup := had (s, ms) (omapGet_mem hms)
  have hmend : (okeys me).Nodup := had (e, me) (omapGet_mem hme)
  have hguard : (!g.nodeExist s || !g.nodeExist e) = false := by simp [hs, he]
  have hedges : (g.deleteEdge s e).edges =
      omapUpdate (omapUpdate g.edges s (fun m => omapDelete m e)) e (fun m => omapDelete m s) := by
    simp [WeightedGraph.deleteEdge, hguard]
  by_cases hae : a = e
  · by_cases hes : e = s
    · have hms' : omapGet g.edges e = some ms := by rw [hes]; exact hms
      have hgete : omapGet (omapUpdate g.edges s (fun m => omapDelete m e)) e
          = some (omapDelete ms e) := by
        rw [← hes, omapGet_update_self, hms', Option.map_some']
      have hga : omapGet (g.deleteEdge s e).edges a
          = some (omapDelete (omapDelete ms e) s) := by
        rw [hedges, hae, omapGet_update_self, hgete, Option.map_some']
      have hdnd : (okeys (omapDelete ms e)).Nodup := okeys_delete_nodup e hmsnd
      by_cases hb : b = e
      · have hbs : b = s := by rw [hb, hes]
        have : omapGet (omapDelete (omapDelete ms e) s) b = none := by
          rw [hbs, omapGet_delete_self _ _ hdnd]
        have hcond : ((a = s ∧ b = e) ∨ (a = e ∧ b = s)) := Or.inl ⟨by rw [hae, hes], hb⟩
        simp only [lookup2, hga, this, if_pos hcond]
      · have hbs : b ≠ s := fun hh => hb (by rw [hh, ← hes])
        have : omapGet (omapDelete (omapDelete ms e) s) b = omapGet ms b := by
          rw [omapGet_delete_ne _ hbs, omapGet_delete_ne _ hb]
        have hcond : ¬((a = s ∧ b = e) ∨ (a = e ∧ b = s)) := by
          simp [hb, hbs]
        simp only [lookup2, hga, this, if_neg hcond]
        rw [hae, hes, hms]
    · have hgete : omapGet (omapUpdate g.edges s (fun m => omapDelete m e)) e
          = some me := by
        rw [omapGet_update_ne _ _ hes, hme]
      have hga : omapGet (g.deleteEdge s e).edges a = some (omapDelete me s) := by
        rw [hedges, hae, omapGet_update_self, hgete, Option.map_some']
      by_cases hbs : b = s
      · have : omapGet (omapDelete me s) b = none := by
          rw [hbs, omapGet_delete_self _ _ hmend]
        have hcond : ((a = s ∧ b = e) ∨ (a = e ∧ b = s)) := Or.inr ⟨hae, hbs⟩
        simp only [lookup2, hga, this, if_pos hcond]
      · have : omapGet (omapDelete me s) b = omapGet me b := omapGet_delete_ne _ hbs
        have hcond : ¬((a = s ∧ b = e) ∨ (a = e ∧ b = s)) := by
          intro hc
          rcases hc with ⟨h1, _⟩ | ⟨_, h2⟩
          · exact hes (by rw [← hae, h1])
          · exact hbs h2
        simp only [lookup2, hga, this, if_neg hcond]
        rw [hae, hme]
  · by_cases has : a = s
    · have hgets : omapGet (omapUpdate g.edges s (fun m => omapDelete m e)) a
          = some (omapDelete ms e) := by
        rw [has, omapGet_update_self, hms, Option.map_some']
      have hga : omapGet (g.deleteEdge s e).edges a = some (omapDelete ms e) := by
        rw [hedges, omapGet_update_ne _ _ hae, hgets]
      by_cases hb : b = e
      · have : omapGet (omapDelete ms e) b = none := by
          rw [hb, omapGet_delete_self _ _ hmsnd]
        have hcond : ((a = s ∧ b = e) ∨ (a = e ∧ b = s)) := Or.inl ⟨has, hb⟩
        simp only [lookup2, hga, this, if_pos hcond]
      · have : omapGet (omapDelete ms e) b = omapGet ms b := omapGet_delete_ne _ hb
        have hcond : ¬((a = s ∧ b = e) ∨ (a = e ∧ b = s)) := by
          intro hc
          rcases hc with ⟨_, h2⟩ | ⟨h1, _⟩
          · exact hb h2
          · exact hae h1
        simp only [lookup2, hga, this, if_neg hcond]
        rw [has, hms]
    · have hga : omapGet (g.deleteEdge s e).edges a = omapGet g.edges a := by
        rw [hedges, omapGet_update_ne _ _ hae, omapGet_update_ne _ _ has]
      have hcond : ¬((a = s ∧ b = e) ∨ (a = e ∧ b = s)) := by
        intro hc
        rcases hc with ⟨h1, _⟩ | ⟨h1, _⟩
        · exact has h1
        · exact hae h1
      simp only [lookup2, hga, if_neg hcond]

/-! ## Store claims -/
theorem bool_not_true {b : Bool} (h : ¬ b = true) : b = false := by
  cases b <;> simp_all

/-- C7: `addEdge(start, end, weight)` is a no-op when either key is absent
from the node mapping; otherwise it stores `weight` under `end` in `start`'s
adjacency map and under `start` in `end`'s, overwriting any prior weight
between the pair.  The graph carries the §3 shape invariant (`EdgesDom`)
that every node key owns an adjacency map. -/
theorem addEdge_spec (g : WeightedGraph) (hdom : EdgesDom g) (s e : Key) (w : ℚ) :
    ((g.nodeExist s = false ∨ g.nodeExist e = false) → g.addEdge s e w = g) ∧
    (g.nodeExist s = true → g.nodeExist e = true →
      lookup2 (g.addEdge s e w) s e = some w ∧ lookup2 (g.addEdge s e w) e s = some w) := by
  refine ⟨fun h => addEdge_of_absent w h, fun hs he => ⟨?_, ?_⟩⟩
  · rw [lookup2_addEdge w hdom hs he s e]
    simp
  · rw [lookup2_addEdge w hdom hs he e s]
    simp

/-- Witness: `addEdge_spec` applied to the concrete scenario graph. -/
theorem addEdge_spec_witness :
    ((gABC.nodeExist "A" = false ∨ gABC.nodeExist "B" = false) →
      gABC.addEdge "A" "B" 5 = gABC) ∧
    (gABC.nodeExist "A" = true → gABC.nodeExist "B" = true →
      lookup2 (gABC.addEdge "A" "B" 5) "A" "B" = some 5 ∧
      lookup2 (gABC.addEdge "A" "B" 5) "B" "A" = some 5) :=
  addEdge_spec gABC (by decide) "A" "B" 5

/-- C9: calling `addNode` on an existing key overwrites that key's metadata,
resets the key's own adjacency map to empty, and leaves every other node's
adjacency map — including entries there that reference the key — untouched. -/
theorem addNode_overwrite_spec (g : WeightedGraph) (k : Key) (m' : NodeMetadata)
    (hex : g.nodeExist k = true) :
    omapGet (g.addNode k m').nodes k = some m' ∧
    omapGet (g.addNode k m').edges k = some [] ∧
    (∀ x, x ≠ k → omapGet (g.addNode k m').edges x = omapGet g.edges x) :=
  ⟨omapGet_set_self _ _ _, omapGet_set_self _ _ _, fun _ hx => omapGet_set_ne _ _ hx⟩

/-- Witness: `addNode_overwrite_spec` on the concrete scenario graph; the
entries for "B" in "A"'s and "C"'s adjacency maps survive the overwrite. -/
theorem addNode_overwrite_witness :
    omapGet (gABC.addNode "B" ⟨false, 5, 5⟩).nodes "B" = some ⟨false, 5, 5⟩ ∧
    omapGet (gABC.addNode "B" ⟨false, 5, 5⟩).edges "B" = some [] ∧
    (∀ x, x ≠ "B" →
      omapGet (gABC.addNode "B" ⟨false, 5, 5⟩).edges x = omapGet gABC.edges x) :=
  addNode_overwrite_spec gABC "B" ⟨false, 5, 5⟩ (by decide)

theorem adjNodup_update_of (es : OMap Key AdjMap) (hnd : ∀ p ∈ es, (okeys p.2).Nodup)
    (k : Key) (f : AdjMap → AdjMap) (hf : ∀ m, (okeys m).Nodup → (okeys (f m)).Nodup) :
    ∀ p ∈ omapUpdate es k f, (okeys p.2).Nodup := by
  intro p hp
  rcases mem_omapUpdate hp with hp | ⟨v, hv, hpe⟩
  · exact hnd p hp
  · rw [hpe]
    exact hf v (hnd (k, v) hv)

theorem applyEdgeOp_shape (g : WeightedGraph) (op : EdgeOp) :
    okeys (applyEdgeOp g op).edges = okeys g.edges ∧ (applyEdgeOp g op).nodes = g.nodes := by
  cases op with
  | add s e w =>
      by_cases hs : g.nodeExist s = true
      · by_cases he : g.nodeExist e = true
        · have : (!g.nodeExist s || !g.nodeExist e) = false := by simp [hs, he]
          simp [applyEdgeOp, WeightedGraph.addEdge, this, okeys_update]
        · simp [applyEdgeOp, addEdge_of_absent w (Or.inr (bool_not_true he))]
      · simp [applyEdgeOp, addEdge_of_absent w (Or.inl (bool_not_true hs))]
  | del s e =>
      by_cases hs : g.nodeExist s = true
      · by_cases he : g.nodeExist e = true
        · have : (!g.nodeExist s || !g.nodeExist e) = false := by simp [hs, he]
          simp [applyEdgeOp, WeightedGraph.deleteEdge, this, okeys_update]
        · simp [applyEdgeOp, deleteEdge_of_absent (Or.inr (bool_not_true he))]
      · simp [applyEdgeOp, deleteEdge_of_absent (Or.inl (bool_not_true hs))]

theorem applyEdgeOp_adjNodup {g : WeightedGraph} (had : AdjNodup g) (op : EdgeOp) :
    AdjNodup (applyEdgeOp g op) := by
  cases op with
  | add s e w =>
      by_cases hs : g.nodeExist s = true
      · by_cases he : g.nodeExist e = true
        · have hguard : (!g.nodeExist s || !g.nodeExist e) = false := by simp [hs, he]
          have hedges : (g.addEdge s e w).edges =
              omapUpdate (omapUpdate g.edges s (fun m => omapSet m e w)) e
                (fun m => omapSet m s w) := by
            simp [WeightedGraph.addEdge, hguard]
          show AdjNodup (g.addEdge s e w)
          intro p hp
          rw [hedges] at hp
          exact adjNodup_update_of _
            (adjNodup_update_of _ had s _ (fun m hm => okeys_set_nodup _ _ hm)) e _
            (fun m hm => okeys_set_nodup _ _ hm) p hp
        · show AdjNodup (g.addEdge s e w)
          rw [addEdge_of_absent w (Or.inr (bool_not_true he))]
          exact had
      · show AdjNodup (g.addEdge s e w)
        rw [addEdge_of_absent w (Or.inl (bool_not_true hs))]
        exact had
  | del s e =>
      by_cases hs : g.nodeExist s = true
      · by_cases he : g.nodeExist e = true
        · have hguard : (!g.nodeExist s || !g.nodeExist e) = false := by simp [hs, he]
          have hedges : (g.deleteEdge s e).edges =
              omapUpdate (omapUpdate g.edges s (fun m => omapDelete m e)) e
                (fun m => omapDelete m s) := by
            simp [WeightedGraph.deleteEdge, hguard]
          show AdjNodup (g.deleteEdge s e)
          intro p hp
          rw [hedges] at hp
          exact adjNodup_update_of _
            (adjNodup_update_of _ had s _ (fun m hm => okeys_delete_nodup _ hm)) e _
            (fun m hm => okeys_delete_nodup _ hm) p hp
        · show AdjNodup (g.deleteEdge s e)
          rw [deleteEdge_of_absent (Or.inr (bool_not_true he))]
          exact had
      · show AdjNodup (g.deleteEdge s e)
        rw [deleteEdge_of_absent (Or.inl (bool_not_true hs))]
        exact had

theorem applyEdgeOp_edgeSym {g : WeightedGraph} (hdom : EdgesDom g) (had : AdjNodup g)
    (hsym : EdgeSym g) (op : EdgeOp) : EdgeSym (applyEdgeOp g op) := by
  cases op with
  | add s e w =>
      by_cases hs : g.nodeExist s = true
      · by_cases he : g.nodeExist e = true
        · show EdgeSym (g.addEdge s e w)
          intro a b
          rw [lookup2_addEdge w hdom hs he a b, lookup2_addEdge w hdom hs he b a]
          by_cases hc : (a = s ∧ b = e) ∨ (a = e ∧ b = s)
          · have hc' : (b = s ∧ a = e) ∨ (b = e ∧ a = s) := by tauto
            rw [if_pos hc, if_pos hc']
          · have hc' : ¬((b = s ∧ a = e) ∨ (b = e ∧ a = s)) := by tauto
            rw [if_neg hc, if_neg hc']
            exact hsym a b
        · show EdgeSym (g.addEdge s e w)
          rw [addEdge_of_absent w (Or.inr (bool_not_true he))]
          exact hsym
      · show EdgeSym (g.addEdge s e w)
        rw [addEdge_of_absent w (Or.inl (bool_not_true hs))]
        exact hsym
  | del s e =>
      by_cases hs : g.nodeExist s = true
      · by_cases he : g.nodeExist e = true
        · show EdgeSym (g.deleteEdge s e)
          intro a b
          rw [lookup2_deleteEdge hdom had hs he a b, lookup2_deleteEdge hdom had hs he b a]
          by_cases hc : (a = s ∧ b = e) ∨ (a = e ∧ b = s)
          · have hc' : (b = s ∧ a = e) ∨ (b = e ∧ a = s) := by tauto
            rw [if_pos hc, if_pos hc']
          · have hc' : ¬((b = s ∧ a = e) ∨ (b = e ∧ a = s)) := by tauto
            rw [if_neg hc, if_neg hc']
            exact hsym a b
        · show EdgeSym (g.deleteEdge s e)
          rw [deleteEdge_of_absent (Or.inr (bool_not_true he))]
          exact hsym
      · show EdgeSym (g.deleteEdge s e)
        rw [deleteEdge_of_absent (Or.inl (bool_not_true hs))]
        exact hsym

theorem applyEdgeOp_edgesDom {g : WeightedGraph} (hdom : EdgesDom g) (op : EdgeOp) :
    EdgesDom (applyEdgeOp g op) := by
  intro k hk
  obtain ⟨he, hn⟩ := applyEdgeOp_shape g op
  rw [he]
  rw [hn] at hk
  exact hdom k hk

/-- C4: starting from any graph carrying the §3 shape invariant whose
adjacency structure is symmetric, every sequence of `addEdge` / `deleteEdge`
calls preserves symmetry: for all keys A, B, the directed entry A → B exists
exactly when B → A does, with the identical weight. -/
theorem edge_ops_preserve_symmetry (g : WeightedGraph) (hdom : EdgesDom g)
    (had : AdjNodup g) (hsym : EdgeSym g) (ops : List EdgeOp) :
    EdgeSym (applyEdgeOps g ops) := by
  suffices h : ∀ g, EdgesDom g → AdjNodup g → EdgeSym g →
      EdgesDom (applyEdgeOps g ops) ∧ AdjNodup (applyEdgeOps g ops) ∧
        EdgeSym (applyEdgeOps g ops) from (h g hdom had hsym).2.2
  induction ops with
  | nil => exact fun g h1 h2 h3 => ⟨h1, h2, h3⟩
  | cons op ops ih =>
      intro g h1 h2 h3
      exact ih (applyEdgeOp g op) (applyEdgeOp_edgesDom h1 op) (applyEdgeOp_adjNodup h2 op)
        (applyEdgeOp_edgeSym h1 h2 h3 op)

/-- Witness: symmetry survives a concrete add / overwrite / delete sequence
on the scenario graph. -/
theorem edge_ops_preserve_symmetry_witness :
    EdgeSym (applyEdgeOps gABC
      [EdgeOp.add "A" "B" 7, EdgeOp.del "B" "C", EdgeOp.add "Z" "A" 1]) :=
  edge_ops_preserve_symmetry gABC (by decide) (by decide)
    (edgeSym_of_entries (by decide)) _

theorem okeys_purge (K : Key) (l : AdjMap) (es : OMap Key AdjMap) :
    okeys (l.foldl (fun es nb => omapUpdate es nb.1 (fun m => omapDelete m K)) es) =
      okeys es := by
  induction l generalizing es with
  | nil => rfl
  | cons nb l' ih => rw [List.foldl_cons, ih, okeys_update]

theorem purge_get (K : Key) (l : AdjMap) (hl : (okeys l).Nodup) (es : OMap Key AdjMap)
    (x : Key) :
    omapGet (l.foldl (fun es nb => omapUpdate es nb.1 (fun m => omapDelete m K)) es) x =
      if x ∈ okeys l then (omapGet es x).map (fun m => omapDelete m K)
      else omapGet es x := by
  induction l generalizing es with
  | nil => simp [okeys]
  | cons nb l' ih =>
      simp only [okeys, List.map_cons, List.nodup_cons] at hl
      rw [List.foldl_cons]
      by_cases hx : x = nb.1
      · have hnot : x ∉ okeys l' := by rw [hx]; exact hl.1
        rw [ih hl.2, if_neg hnot, hx, omapGet_update_self]
        rw [if_pos (show nb.1 ∈ okeys (nb :: l') by simp [okeys])]
      · have hmem : x ∈ okeys (nb :: l') ↔ x ∈ okeys l' := by
          simp [okeys, hx]
        rw [ih hl.2, omapGet_update_ne _ _ hx]
        by_cases hx' : x ∈ okeys l'
        · rw [if_pos hx', if_pos (hmem.2 hx')]
        · rw [if_neg hx', if_neg (fun hh => hx' (hmem.1 hh))]

/-- C5: on a graph satisfying the §3 data-model invariants (shape, distinct
`Map` keys, adjacency targets exist, symmetry), after `deleteNode(K)` no
adjacency map holds an entry for `K` and `nodeExists(K)` is false. -/
theorem deleteNode_cascade (g : WeightedGraph) (K : Key) (hwf : GraphWF g)
    (hsym : EdgeSym g) :
    (g.deleteNode K).nodeExist K = false ∧
    ∀ x, lookup2 (g.deleteNode K) x K = none := by
  obtain ⟨hnnd, hednd, had, hdom, htgt⟩ := hwf
  by_cases hK : g.nodeExist K = true
  · obtain ⟨mK, hmK⟩ := nodeExist_mem_edges hdom hK
    have hhas : omapHas g.edges K = true := by simp [omapHas, hmK]
    have hneighbors : (omapGet g.edges K).getD [] = mK := by rw [hmK]; rfl
    have hres : g.deleteNode K =
        ⟨omapDelete g.nodes K,
         omapDelete
           (mK.foldl (fun es nb => omapUpdate es nb.1 (fun m => omapDelete m K)) g.edges)
           K⟩ := by
      simp [WeightedGraph.deleteNode, hK, hhas, hneighbors]
    have hmKnd : (okeys mK).Nodup := had (K, mK) (omapGet_mem hmK)
    constructor
    · rw [hres]
      show omapHas (omapDelete g.nodes K) K = false
      simp [omapHas, omapGet_delete_self _ _ hnnd]
    · intro x
      rw [hres]
      show (match omapGet (omapDelete
          (mK.foldl (fun es nb => omapUpdate es nb.1 (fun m => omapDelete m K)) g.edges) K)
          x with
        | none => none
        | some m => omapGet m K) = none
      by_cases hxK : x = K
      · have hpnd : (okeys
            (mK.foldl (fun es nb => omapUpdate es nb.1 (fun m => omapDelete m K))
              g.edges)).Nodup := by
          rw [okeys_purge]
          exact hednd
        rw [hxK, omapGet_delete_self _ _ hpnd]
      · rw [omapGet_delete_ne _ hxK, purge_get K mK hmKnd g.edges x]
        by_cases hxm : x ∈ okeys mK
        · rw [if_pos hxm]
          rcases hgx : omapGet g.edges x with _ | m
          · simp
          · simp only [Option.map_some']
            rw [omapGet_delete_self _ _ (had (x, m) (omapGet_mem hgx))]
        · rw [if_neg hxm]
          have hKx : lookup2 g K x = none := by
            simp only [lookup2, hmK]
            rw [omapGet_eq_none_iff]
            exact hxm
          have := (hsym x K).trans hKx
          simp only [lookup2] at this
          rcases hgx : omapGet g.edges x with _ | m
          · simp
          · rw [hgx] at this
            exact this
  · have hK' : g.nodeExist K = false := bool_not_true hK
    have hres : g.deleteNode K = g := by simp [WeightedGraph.deleteNode, hK']
    rw [hres]
    refine ⟨hK', fun x => ?_⟩
    rcases hgx : omapGet g.edges x with _ | m
    · simp [lookup2, hgx]
    · rcases hw : omapGet m K with _ | w
      · simp [lookup2, hgx, hw]
      · exfalso
        have hmem : K ∈ okeys g.nodes := htgt (x, m) (omapGet_mem hgx) (K, w) (omapGet_mem hw)
        rw [mem_okeys_iff] at hmem
        simp only [WeightedGraph.nodeExist, omapHas] at hK'
        rw [hK'] at hmem
        exact Bool.false_ne_true hmem

/-- Witness: cascade deletion of node "B" of the scenario graph. -/
theorem deleteNode_cascade_witness :
    (gABC.deleteNode "B").nodeExist "B" = false ∧
    ∀ x, lookup2 (gABC.deleteNode "B") x "B" = none :=
  deleteNode_cascade gABC "B" (by decide) (edgeSym_of_entries (by decide))

/-! ## Codec claims -/
theorem mem_okeys_delete_ne [DecidableEq α] {m : OMap α β} {k a : α}
    (hnd : (okeys m).Nodup) (h : a ∈ okeys (omapDelete m k)) : a ≠ k := by
  intro hak
  rw [hak, mem_okeys_iff, omapGet_delete_self _ _ hnd] at h
  exact Bool.false_ne_true h

theorem mem_okeys_delete_of [DecidableEq α] {m : OMap α β} {k a : α}
    (hak : a ≠ k) (h : a ∈ okeys m) : a ∈ okeys (omapDelete m k) := by
  rw [mem_okeys_iff, omapGet_delete_ne _ hak, ← mem_okeys_iff]
  exact h

theorem purge_entries (K : Key) (l : AdjMap) (es : OMap Key AdjMap)
    (h : ∀ p ∈ es, (okeys p.2).Nodup) :
    ∀ p ∈ l.foldl (fun es nb => omapUpdate es nb.1 (fun m => omapDelete m K)) es,
      (okeys p.2).Nodup := by
  induction l generalizing es with
  | nil => exact h
  | cons nb l' ih =>
      rw [List.foldl_cons]
      exact ih _ (adjNodup_update_of es h nb.1 _ (fun m hm => okeys_delete_nodup _ hm))

theorem storeInv_addNode {g : WeightedGraph} (h : StoreInv g) (k : Key) (m : NodeMetadata) :
    StoreInv (g.addNode k m) := by
  obtain ⟨h1, h2, h3, h4⟩ := h
  refine ⟨okeys_set_nodup _ _ h1, okeys_set_nodup _ _ h2, ?_, ?_⟩
  · intro p hp
    rcases mem_omapSet hp with hp | hp
    · exact h3 p hp
    · rw [hp]
      simp [okeys]
  · intro x hx
    rcases (okeys_set_mem_iff _ _ _ _).1 hx with hx | hx
    · exact (okeys_set_mem_iff _ _ _ _).2 (Or.inl (h4 x hx))
    · exact (okeys_set_mem_iff _ _ _ _).2 (Or.inr hx)

theorem storeInv_edgeOp {g : WeightedGraph} (h : StoreInv g) (op : EdgeOp) :
    StoreInv (applyEdgeOp g op) := by
  obtain ⟨h1, h2, h3, h4⟩ := h
  obtain ⟨he, hn⟩ := applyEdgeOp_shape g op
  refine ⟨by rw [hn]; exact h1, by rw [he]; exact h2, applyEdgeOp_adjNodup h3 op, ?_⟩
  intro x hx
  rw [he] at hx
  rw [hn]
  exact h4 x hx

theorem storeInv_deleteNode {g : WeightedGraph} (h : StoreInv g) (K : Key) :
    StoreInv (g.deleteNode K) := by
  obtain ⟨h1, h2, h3, h4⟩ := h
  by_cases hK : g.nodeExist K = true
  · by_cases hhas : omapHas g.edges K = true
    · obtain ⟨mK, hmK⟩ : ∃ m, omapGet g.edges K = some m := by
        simp only [omapHas] at hhas
        exact Option.isSome_iff_exists.1 hhas
      have hneighbors : (omapGet g.edges K).getD [] = mK := by rw [hmK]; rfl
      have hres : g.deleteNode K =
          ⟨omapDelete g.nodes K,
           omapDelete
             (mK.foldl (fun es nb => omapUpdate es nb.1 (fun m => omapDelete m K)) g.edges)
             K⟩ := by
        simp [WeightedGraph.deleteNode, hK, hhas, hneighbors]
      have hpnd : (okeys (mK.foldl
          (fun es nb => omapUpdate es nb.1 (fun m => omapDelete m K)) g.edges)).Nodup := by
        rw [okeys_purge]
        exact h2
      rw [hres]
      refine ⟨okeys_delete_nodup _ h1, okeys_delete_nodup _ hpnd, ?_, ?_⟩
      · intro p hp
        exact purge_entries K mK g.edges h3 p (mem_omapDelete hp)
      · intro x hx
        have hxK : x ≠ K := mem_okeys_delete_ne hpnd hx
        have hx' : x ∈ okeys (mK.foldl
            (fun es nb => omapUpdate es nb.1 (fun m => omapDelete m K)) g.edges) :=
          okeys_delete_mem hx
        rw [okeys_purge] at hx'
        exact mem_okeys_delete_of hxK (h4 x hx')
    · have hres : g.deleteNode K = ⟨omapDelete g.nodes K, g.edges⟩ := by
        simp [WeightedGraph.deleteNode, hK, bool_not_true hhas]
      rw [hres]
      refine ⟨okeys_delete_nodup _ h1, h2, h3, ?_⟩
      intro x hx
      have hxn := h4 x hx
      have hxK : x ≠ K := by
        intro hxK
        rw [hxK, mem_okeys_iff] at hx
        simp only [omapHas] at hhas
        exact hhas hx
      exact mem_okeys_delete_of hxK hxn
  · have hres : g.deleteNode K = g := by
      simp [WeightedGraph.deleteNode, bool_not_true hK]
    rw [hres]
    exact ⟨h1, h2, h3, h4⟩

theorem storeInv_updateNode {g : WeightedGraph} (h : StoreInv g) (k : Key)
    (p : WeightedGraph.PartialMetadata) : StoreInv (g.updateNode k p) := by
  obtain ⟨h1, h2, h3, h4⟩ := h
  refine ⟨okeys_set_nodup _ _ h1, h2, h3, ?_⟩
  intro x hx
  exact (okeys_set_mem_iff _ _ _ _).2 (Or.inl (h4 x hx))

theorem reached_inv {g : WeightedGraph} (hr : Reached g) : StoreInv g := by
  induction hr with
  | start =>
      refine ⟨List.nodup_nil, List.nodup_nil, fun p hp => absurd hp ?_, fun k hk => absurd hk ?_⟩
      · simp [WeightedGraph.empty]
      · simp [WeightedGraph.empty, okeys]
  | addNode k m _ ih => exact storeInv_addNode ih k m
  | addEdge s e w _ ih => exact storeInv_edgeOp ih (.add s e w)
  | deleteEdge s e _ ih => exact storeInv_edgeOp ih (.del s e)
  | deleteNode k _ ih => exact storeInv_deleteNode ih k
  | updateNode k p _ ih => exact storeInv_updateNode ih k p

theorem rebuild_nodes (l : List (Key × NodeMetadata)) :
    ∀ (ns : OMap Key NodeMetadata) (es : OMap Key AdjMap),
      okeys es = okeys ns → (okeys ns ++ l.map Prod.fst).Nodup →
      (l.foldl (fun (acc : WeightedGraph) kv => acc.addNode kv.1 kv.2) ⟨ns, es⟩) =
        ⟨ns ++ l, es ++ l.map (fun kv => (kv.1, []))⟩ := by
  induction l with
  | nil =>
      intro ns es _ _
      simp
  | cons kv l' ih =>
      intro ns es hkeys hnd
      have hk : kv.1 ∉ okeys ns := by
        intro hmem
        rw [List.map_cons] at hnd
        exact (List.disjoint_of_nodup_append hnd) hmem (List.mem_cons_self _ _)
      have hk' : kv.1 ∉ okeys es := by rwa [hkeys]
      have hstep : WeightedGraph.addNode ⟨ns, es⟩ kv.1 kv.2 =
          ⟨ns ++ [(kv.1, kv.2)], es ++ [(kv.1, [])]⟩ := by
        simp only [WeightedGraph.addNode]
        rw [omapSet_append _ hk, omapSet_append _ hk']
      rw [List.foldl_cons, hstep,
        ih (ns ++ [(kv.1, kv.2)]) (es ++ [(kv.1, [])])
          (by
            have h2 : (List.map Prod.fst es : List Key) = List.map Prod.fst ns := hkeys
            simp [okeys, h2])
          (by simp only [okeys, List.map_append, List.map_cons] at hnd ⊢
              simpa [List.append_assoc] using hnd)]
      simp

theorem foldl_set_get (l : List (Key × List (Key × ℚ))) (hnd : (l.map Prod.fst).Nodup) :
    ∀ (m : OMap Key AdjMap) (a : Key),
      omapGet (l.foldl (fun es kv => omapSet es kv.1 (WeightedGraph.buildAdj kv.2)) m) a =
        match omapGet l a with
        | some v => some (WeightedGraph.buildAdj v)
        | none => omapGet m a := by
  induction l with
  | nil => intro m a; simp [omapGet]
  | cons kv l' ih =>
      intro m a
      simp only [List.map_cons, List.nodup_cons] at hnd
      rw [List.foldl_cons, ih hnd.2]
      by_cases ha : a = kv.1
      · have hnone : omapGet l' a = none := by
          rw [omapGet_eq_none_iff]
          rw [ha]
          exact hnd.1
        rw [hnone]
        have : omapGet ((kv.1, kv.2) :: l') a = some kv.2 := by
          simp [omapGet, ha]
        rw [this, ha, omapGet_set_self]
      · have : omapGet ((kv.1, kv.2) :: l') a = omapGet l' a := by
          simp only [omapGet]
          rw [if_neg (fun hh => ha hh.symm)]
        rw [this, omapGet_set_ne _ _ ha]

theorem foldl_omapSet_self [DecidableEq α] (l : OMap α β) :
    ∀ m : OMap α β, (okeys m ++ okeys l).Nodup →
      l.foldl (fun m e => omapSet m e.1 e.2) m = m ++ l := by
  induction l with
  | nil => intro m _; simp
  | cons e l' ih =>
      intro m hnd
      have he : e.1 ∉ okeys m := by
        intro hmem
        simp only [okeys, List.map_cons] at hnd
        exact (List.disjoint_of_nodup_append hnd) hmem (List.mem_cons_self _ _)
      rw [List.foldl_cons, omapSet_append _ he, ih (m ++ [e])]
      · simp
      · simp only [okeys, List.map_append, List.map_cons] at hnd ⊢
        simpa [List.append_assoc] using hnd

theorem buildAdj_eq (l : AdjMap) (h : (okeys l).Nodup) : WeightedGraph.buildAdj l = l := by
  have := foldl_omapSet_self l [] (by simpa [okeys] using h)
  simpa [WeightedGraph.buildAdj] using this

theorem map_const_adj_get (l : OMap Key NodeMetadata) (a : Key) :
    omapGet (l.map (fun kv => (kv.1, ([] : AdjMap)))) a =
      (omapGet l a).map (fun _ => ([] : AdjMap)) := by
  induction l with
  | nil => simp [omapGet]
  | cons kv l' ih =>
      by_cases ha : kv.1 = a <;> simp [omapGet, ha, ih]

/-- C2: on every Store-reachable graph with symmetric adjacency, rebuilding
from the serialized payload reproduces the node mapping exactly (same keys,
equal metadata, same order) and an observably identical adjacency structure:
every directed neighbour-to-weight read agrees. -/
theorem roundtrip_spec (g : WeightedGraph) (hr : Reached g) (hsym : EdgeSym g) :
    (g.fromJSON (.wellFormed g.toJSON)).nodes = g.nodes ∧
    ∀ a b, lookup2 (g.fromJSON (.wellFormed g.toJSON)) a b = lookup2 g a b := by
  obtain ⟨hnnd, hednd, had, hsub⟩ := reached_inv hr
  have hg1 : (g.nodes.foldl (fun (acc : WeightedGraph) kv => acc.addNode kv.1 kv.2)
        ⟨[], []⟩)
      = (⟨g.nodes, g.nodes.map (fun kv => (kv.1, []))⟩ : WeightedGraph) := by
    have hh := rebuild_nodes g.nodes [] [] rfl (by simpa [okeys] using hnnd)
    simpa using hh
  have hres : g.fromJSON (.wellFormed g.toJSON) =
      (⟨g.nodes,
        g.edges.foldl (fun es kv => omapSet es kv.1 (WeightedGraph.buildAdj kv.2))
          (g.nodes.map (fun kv => (kv.1, [])))⟩ : WeightedGraph) := by
    simp only [WeightedGraph.fromJSON, WeightedGraph.toJSON]
    rw [hg1]
  rw [hres]
  refine ⟨rfl, fun a b => ?_⟩
  have hget := foldl_set_get g.edges hednd (g.nodes.map (fun kv => (kv.1, []))) a
  rcases hga : omapGet g.edges a with _ | ma
  · rw [hga] at hget
    simp only at hget
    rw [map_const_adj_get] at hget
    simp only [lookup2, hget, hga]
    rcases omapGet g.nodes a with _ | mm
    · simp
    · simp [omapGet]
  · rw [hga] at hget
    simp only at hget
    have hmand : (okeys ma).Nodup := had (a, ma) (omapGet_mem hga)
    rw [buildAdj_eq ma hmand] at hget
    simp only [lookup2, hget, hga]

/-- Witness: the round trip on the concrete scenario graph. -/
theorem roundtrip_spec_witness :
    (gABC.fromJSON (.wellFormed gABC.toJSON)).nodes = gABC.nodes ∧
    ∀ a b, lookup2 (gABC.fromJSON (.wellFormed gABC.toJSON)) a b = lookup2 gABC a b :=
  roundtrip_spec gABC
    (.addEdge "A" "C" 10 (.addEdge "B" "C" 4 (.addEdge "A" "B" 3
      (.addNode "C" ⟨true, 2, 0⟩ (.addNode "B" ⟨true, 1, 0⟩
        (.addNode "A" ⟨false, 0, 0⟩ .start))))))
    (edgeSym_of_entries (by decide))

/-- C3, the state-preservation half (which the code honours): `fromJSON` on
text that does not parse, or whose parse lacks a `nodes` or `edges` array,
returns with the node and adjacency mappings untouched.  The error itself is
only logged (`console.error`), not reported to the caller — the divergence
from the claim. -/
theorem fromJSON_invalid_preserves (g : WeightedGraph) :
    g.fromJSON .malformed = g ∧ g.fromJSON .badShape = g :=
  ⟨rfl, rfl⟩

/-! ## Frame claim -/
theorem dijkstraLoop_graph (stop? : Option Key) (g : WeightedGraph) :
    ∀ (fuel : Nat) (u : List Key) (d : OMap Key JDist) (p : OMap Key Key),
      (dijkstraLoop stop? g fuel u d p).2.2 = g := by
  intro fuel
  induction fuel with
  | zero =>
      intro u d p
      cases u <;> rfl
  | succ n ih =>
      intro u d p
      cases u with
      | nil => rfl
      | cons h rest =>
          show (if stop? = some (reduceMin d h rest) then (d, p, g)
                else
                  let dp := relaxAll g (reduceMin d h rest) (h :: rest) d p
                  dijkstraLoop stop? g n ((h :: rest).erase (reduceMin d h rest))
                    dp.1 dp.2).2.2 = g
          by_cases hs : stop? = some (reduceMin d h rest)
          · rw [if_pos hs]
          · rw [if_neg hs]
            exact ih _ _ _

/-- C10: the two Pathfinder queries are read-only — the graph returned by a
call (the `this` of the method) is the one passed in, with the node and
adjacency mappings structurally identical entry for entry, in the same
insertion order. -/
theorem queries_readonly (g : WeightedGraph) (s t : Key) (n : Nat) :
    (findCheapestPath g s t).2 = g ∧ (findClosestNReady g s n).2 = g := by
  constructor
  · show (if (!(g.nodeExist s) || !(g.nodeExist t)) = true then ((none : Option (List Key)), g)
        else _).2 = g
    by_cases hg : (!(g.nodeExist s) || !(g.nodeExist t)) = true
    · rw [if_pos hg]
    · rw [if_neg hg]
      exact dijkstraLoop_graph _ _ _ _ _ _
  · show (if (!(g.nodeExist s)) = true then ((none : Option (List Key)), g) else _).2 = g
    by_cases hg : (!(g.nodeExist s)) = true
    · rw [if_pos hg]
    · rw [if_neg hg]
      exact dijkstraLoop_graph _ _ _ _ _ _

/-! ## Dijkstra development: basic lemmas -/
theorem lookup2_eq_adj (g : WeightedGraph) (x y : Key) :
    lookup2 g x y = omapGet (adjList g x) y := by
  simp only [lookup2, adjList]
  rcases omapGet g.edges x with _ | m
  · simp [omapGet]
  · simp

theorem adjList_entry_edges {g : WeightedGraph} {x : Key} {e : Key × ℚ}
    (he : e ∈ adjList g x) : ∃ m, omapGet g.edges x = some m ∧ e ∈ m := by
  simp only [adjList] at he
  rcases hm : omapGet g.edges x with _ | m
  · rw [hm] at he
    simp at he
  · rw [hm] at he
    exact ⟨m, rfl, he⟩

theorem adj_target {g : WeightedGraph} (htgt : TargetsExist g) {x : Key} {e : Key × ℚ}
    (he : e ∈ adjList g x) : e.1 ∈ okeys g.nodes := by
  obtain ⟨m, hm, hem⟩ := adjList_entry_edges he
  exact htgt (x, m) (omapGet_mem hm) e hem

theorem adj_nonneg {g : WeightedGraph} (hw : NonnegWeights g) {x : Key} {e : Key × ℚ}
    (he : e ∈ adjList g x) : 0 ≤ e.2 := by
  obtain ⟨m, hm, hem⟩ := adjList_entry_edges he
  exact hw (x, m) (omapGet_mem hm) e hem

theorem adj_nodup {g : WeightedGraph} (had : AdjNodup g) (x : Key) :
    (okeys (adjList g x)).Nodup := by
  simp only [adjList]
  rcases hm : omapGet g.edges x with _ | m
  · simp [okeys]
  · exact had (x, m) (omapGet_mem hm)

theorem lookup2_target {g : WeightedGraph} (htgt : TargetsExist g) {x y : Key} {w : ℚ}
    (h : lookup2 g x y = some w) : y ∈ okeys g.nodes := by
  rw [lookup2_eq_adj] at h
  exact adj_target htgt (omapGet_mem h)

theorem lookup2_nonneg {g : WeightedGraph} (hw : NonnegWeights g) {x y : Key} {w : ℚ}
    (h : lookup2 g x y = some w) : 0 ≤ w := by
  rw [lookup2_eq_adj] at h
  exact adj_nonneg hw (omapGet_mem h)

theorem omapGet_map_entry [DecidableEq α] (l : OMap α β) (f : α × β → γ) (a : α) :
    omapGet (l.map (fun kv => (kv.1, f kv))) a = (omapGet l a).map (fun v => f (a, v)) := by
  induction l with
  | nil => simp [omapGet]
  | cons kv l' ih =>
      obtain ⟨k1, v1⟩ := kv
      by_cases ha : k1 = a
      · subst ha
        simp [omapGet]
      · simp [omapGet, ha, ih]

/-- The distance read after initialization: `0` at `start`, `Infinity`
everywhere else. -/
theorem dget_init (g : WeightedGraph) (s v : Key) :
    dget (initDistances g s) v = if v = s then some 0 else none := by
  by_cases hv : v = s
  · rw [hv, if_pos rfl]
    simp [dget, initDistances, omapGet_set_self]
  · rw [if_neg hv]
    simp only [dget, initDistances, omapGet_set_ne _ _ hv]
    have := omapGet_map_entry g.nodes (fun _ => (none : JDist)) v
    rw [this]
    rcases omapGet g.nodes v with _ | m <;> simp

theorem initDistances_dom (g : WeightedGraph) (s : Key) :
    ∀ k ∈ okeys g.nodes, (omapGet (initDistances g s) k).isSome = true := by
  intro k _hk
  by_cases hk : k = s
  · rw [hk]
    simp [initDistances, omapGet_set_self]
  · simp only [initDistances, omapGet_set_ne _ _ hk]
    rw [omapGet_map_entry g.nodes (fun _ => (none : JDist)) k]
    rw [mem_okeys_iff] at _hk
    rcases Option.isSome_iff_exists.1 _hk with ⟨m, hm⟩
    simp [hm]

theorem jlt_jadd_self_false (a : JDist) {w : ℚ} (hw : 0 ≤ w) :
    jlt (jadd a w) a = false := by
  cases a <;> simp [jlt, jadd] <;> linarith

theorem jle_some_mono {a : JDist} {c c' : ℚ} (hcc : c ≤ c') (h : jle a (some c) = true) :
    jle a (some c') = true := by
  cases a <;> simp_all [jle] <;> linarith

theorem dget_set_self (d : OMap Key JDist) (k : Key) (v : JDist) :
    dget (omapSet d k v) k = v := by
  simp [dget, omapGet_set_self]

theorem dget_set_ne (d : OMap Key JDist) {k k' : Key} (v : JDist) (h : k' ≠ k) :
    dget (omapSet d k v) k' = dget d k' := by
  simp [dget, omapGet_set_ne _ _ h]

theorem list_contains_iff (l : List Key) (a : Key) : l.contains a = true ↔ a ∈ l := by
  simp

theorem reduceMin_le (d : OMap Key JDist) (l : List Key) :
    ∀ acc : Key, jle (dget d (reduceMin d acc l)) (dget d acc) = true ∧
      ∀ y ∈ l, jle (dget d (reduceMin d acc l)) (dget d y) = true := by
  induction l with
  | nil => exact fun acc => ⟨jle_refl _, by simp⟩
  | cons k rest ih =>
      intro acc
      rw [reduceMin]
      by_cases hk : jlt (dget d k) (dget d acc) = true
      · rw [if_pos hk]
        obtain ⟨h1, h2⟩ := ih k
        refine ⟨jle_trans h1 (jlt_imp_jle hk), fun y hy => ?_⟩
        rcases List.mem_cons.1 hy with hy | hy
        · rw [hy]; exact h1
        · exact h2 y hy
      · rw [if_neg hk]
        obtain ⟨h1, h2⟩ := ih acc
        have hak : jle (dget d acc) (dget d k) = true :=
          not_jlt_iff_jle.1 (by revert hk; cases jlt (dget d k) (dget d acc) <;> simp)
        refine ⟨h1, fun y hy => ?_⟩
        rcases List.mem_cons.1 hy with hy | hy
        · rw [hy]; exact jle_trans h1 hak
        · exact h2 y hy

theorem reduceMin_le_mem (d : OMap Key JDist) (h : Key) (rest : List Key) :
    ∀ y ∈ h :: rest, jle (dget d (reduceMin d h rest)) (dget d y) = true := by
  intro y hy
  obtain ⟨h1, h2⟩ := reduceMin_le d rest h
  rcases List.mem_cons.1 hy with hy | hy
  · rw [hy]; exact h1
  · exact h2 y hy

theorem walkCost_nonneg {g : WeightedGraph} (hw : NonnegWeights g) :
    ∀ q, IsWalk g q → 0 ≤ walkCost g q := by
  intro q
  induction q with
  | nil => intro h; exact absurd h (by simp [IsWalk])
  | cons x rest ih =>
      intro h
      cases rest with
      | nil => simp [walkCost]
      | cons y rest' =>
          obtain ⟨h1, h2⟩ := h
          rcases Option.isSome_iff_exists.1 h1 with ⟨w, hwxy⟩
          have hw0 : 0 ≤ w := lookup2_nonneg hw hwxy
          have := ih h2
          simp only [walkCost, hwxy, Option.getD_some]
          linarith

theorem isWalk_append_one {g : WeightedGraph} {ch : List Key} {x v : Key}
    (hch : IsWalk g ch) (hlast : ch.getLast? = some x)
    (hedge : (lookup2 g x v).isSome = true) : IsWalk g (ch ++ [v]) := by
  induction ch generalizing x with
  | nil => exact absurd hch (by simp [IsWalk])
  | cons a rest ih =>
      cases rest with
      | nil =>
          simp only [List.getLast?_singleton, Option.some.injEq] at hlast
          rw [hlast]
          exact ⟨hedge, trivial⟩
      | cons b rest' =>
          obtain ⟨h1, h2⟩ := hch
          have hlast' : (b :: rest').getLast? = some x := by
            rw [List.getLast?_cons_cons] at hlast
            exact hlast
          exact ⟨h1, ih h2 hlast' hedge⟩

theorem walkCost_append_one {g : WeightedGraph} {ch : List Key} {x v : Key}
    (hlast : ch.getLast? = some x) :
    walkCost g (ch ++ [v]) = walkCost g ch + (lookup2 g x v).getD 0 := by
  induction ch generalizing x with
  | nil => simp at hlast
  | cons a rest ih =>
      cases rest with
      | nil =>
          simp only [List.getLast?_singleton, Option.some.injEq] at hlast
          rw [hlast]
          simp [walkCost]
      | cons b rest' =>
          have hlast' : (b :: rest').getLast? = some x := by
            rw [List.getLast?_cons_cons] at hlast
            exact hlast
          show walkCost g (a :: b :: (rest' ++ [v])) = _
          simp only [walkCost]
          rw [show b :: (rest' ++ [v]) = (b :: rest') ++ [v] from rfl, ih hlast']
          ring

theorem prevChain_last {prev : OMap Key Key} {v : Key} {ch : List Key}
    (h : PrevChain prev v ch) : ch.getLast? = some v := by
  induction h with
  | base u hu => rfl
  | step u q p hq hp ih => simp

theorem prevChain_ne_nil {prev : OMap Key Key} {v : Key} {ch : List Key}
    (h : PrevChain prev v ch) : ch ≠ [] := by
  induction h with
  | base u hu => simp
  | step u q p hq hp ih => simp

theorem prevChain_congr {prev prev' : OMap Key Key} {v : Key} {ch : List Key}
    (h : PrevChain prev v ch)
    (hsame : ∀ x ∈ ch, omapGet prev' x = omapGet prev x) : PrevChain prev' v ch := by
  induction h with
  | base u hu =>
      exact .base u ((hsame u (by simp)).trans hu)
  | step u q p hq hp ih =>
      refine .step u q p ((hsame u (by simp)).trans hq) (ih fun x hx => ?_)
      exact hsame x (by simp [hx])

theorem prevChain_mem {prev : OMap Key Key} {v : Key} {ch : List Key}
    (h : PrevChain prev v ch) :
    ∀ x ∈ ch, x = v ∨ ∃ y, omapGet prev y = some x := by
  induction h with
  | base u hu =>
      intro x hx
      simp at hx
      exact Or.inl hx
  | step u q p hq hp ih =>
      intro x hx
      rcases List.mem_append.1 hx with hx | hx
      · rcases ih x hx with hx' | hx'
        · exact Or.inr ⟨u, hx' ▸ hq⟩
        · exact Or.inr hx'
      · simp at hx
        exact Or.inl hx

theorem prevChain_head {prev : OMap Key Key} {v : Key} {ch : List Key}
    (h : PrevChain prev v ch) {u : Key} (hu : omapGet prev v = some u) :
    ∀ p', PrevChain prev u p' → p'.head? = ch.head? → PrevChain prev v (p' ++ [v]) := by
  intro p' hp' _
  exact .step v u p' hu hp'

/-- `walkBack` reads off exactly the `PrevChain` when the fuel covers the
chain length. -/
theorem walkBack_eq_chain {prev : OMap Key Key} {v : Key} {ch : List Key}
    (h : PrevChain prev v ch) :
    ∀ fuel, ch.length ≤ fuel + 1 → (walkBack prev fuel v).reverse = ch := by
  induction h with
  | base u hu =>
      intro fuel _
      cases fuel with
      | zero => rfl
      | succ n => simp [walkBack, hu]
  | step u q p hq hp ih =>
      intro fuel hlen
      cases fuel with
      | zero =>
          exfalso
          have := prevChain_ne_nil hp
          have hp1 : 1 ≤ p.length := by
            cases p with
            | nil => exact absurd rfl this
            | cons a l => simp
          simp only [List.length_append, List.length_singleton] at hlen
          omega
      | succ n =>
          simp only [walkBack, hq, List.reverse_cons]
          have hlen' : p.length ≤ n + 1 := by
            simp only [List.length_append, List.length_singleton] at hlen
            omega
          rw [ih n hlen']

/-- Effect of the relaxation `forEach` over the adjacency entries of one
selected node (distinct entry keys, non-negative weights): every key either
keeps both its distance and predecessor, or records a strict relaxation
through the unique adjacency entry of the selected node for it; every entry
into the unvisited set ends relaxed; and the distance map keeps its domain. -/
theorem relaxFold_spec (U₀ : List Key) (cur : Key) (l : List (Key × ℚ))
    (hlnd : (l.map Prod.fst).Nodup) (hlw : ∀ e ∈ l, 0 ≤ e.2) :
    ∀ (d₀ : OMap Key JDist) (p₀ : OMap Key Key),
      (∀ v a, dget d₀ v = some a → 0 ≤ a) →
      (∀ v,
        (dget (l.foldl (relaxStep U₀ cur) (d₀, p₀)).1 v = dget d₀ v ∧
         omapGet (l.foldl (relaxStep U₀ cur) (d₀, p₀)).2 v = omapGet p₀ v) ∨
        (v ∈ U₀ ∧ omapGet (l.foldl (relaxStep U₀ cur) (d₀, p₀)).2 v = some cur ∧
          ∃ w, (v, w) ∈ l ∧
            dget (l.foldl (relaxStep U₀ cur) (d₀, p₀)).1 v = jadd (dget d₀ cur) w ∧
            (dget d₀ cur).isSome = true ∧
            jlt (jadd (dget d₀ cur) w) (dget d₀ v) = true)) ∧
      (∀ e ∈ l, e.1 ∈ U₀ →
        jle (dget (l.foldl (relaxStep U₀ cur) (d₀, p₀)).1 e.1)
          (jadd (dget d₀ cur) e.2) = true) ∧
      (∀ k, (omapGet d₀ k).isSome = true →
        (omapGet (l.foldl (relaxStep U₀ cur) (d₀, p₀)).1 k).isSome = true) := by
  induction l with
  | nil =>
      intro d₀ p₀ _
      exact ⟨fun v => Or.inl ⟨rfl, rfl⟩, by simp, fun k hk => hk⟩
  | cons e₀ l' ih =>
      intro d₀ p₀ hd₀
      simp only [List.map_cons, List.nodup_cons] at hlnd
      have hw₀ : 0 ≤ e₀.2 := hlw e₀ (List.mem_cons_self _ _)
      have hlw' : ∀ e ∈ l', 0 ≤ e.2 := fun e he => hlw e (List.mem_cons_of_mem _ he)
      by_cases hc : U₀.contains e₀.1 = true
      · have hcm : e₀.1 ∈ U₀ := (list_contains_iff _ _).1 hc
        by_cases hj : jlt (jadd (dget d₀ cur) e₀.2) (dget d₀ e₀.1) = true
        · -- the entry is relaxed
          have hd1 : relaxStep U₀ cur (d₀, p₀) e₀ =
              (omapSet d₀ e₀.1 (jadd (dget d₀ cur) e₀.2), omapSet p₀ e₀.1 cur) := by
            simp [relaxStep, hcm, hj]
          have hcurSome : ∃ b, dget d₀ cur = some b := by
            rcases hb : dget d₀ cur with _ | b
            · rw [hb] at hj
              simp [jadd, jlt] at hj
            · exact ⟨b, rfl⟩
          obtain ⟨b, hb⟩ := hcurSome
          have hb0 : 0 ≤ b := hd₀ cur b hb
          have hcurne : cur ≠ e₀.1 := by
            intro hh
            rw [← hh] at hj
            rw [jlt_jadd_self_false (dget d₀ cur) hw₀] at hj
            exact Bool.false_ne_true hj
          have hcur1 : dget (omapSet d₀ e₀.1 (jadd (dget d₀ cur) e₀.2)) cur = dget d₀ cur :=
            dget_set_ne _ _ hcurne
          have hd1nonneg : ∀ v a,
              dget (omapSet d₀ e₀.1 (jadd (dget d₀ cur) e₀.2)) v = some a → 0 ≤ a := by
            intro v a hv
            by_cases hve : v = e₀.1
            · rw [hve, dget_set_self] at hv
              rw [hb] at hv
              simp only [jadd, Option.some.injEq] at hv
              rw [← hv]
              linarith
            · rw [dget_set_ne _ _ hve] at hv
              exact hd₀ v a hv
          obtain ⟨ih1, ih2, ih3⟩ :=
            ih hlnd.2 hlw' (omapSet d₀ e₀.1 (jadd (dget d₀ cur) e₀.2)) (omapSet p₀ e₀.1 cur)
              hd1nonneg
          rw [List.foldl_cons, hd1]
          refine ⟨?_, ?_, ?_⟩
          · intro v
            rcases ih1 v with ⟨hv1, hv2⟩ | ⟨hvU, hvp, w, hwl, hvd, hvs, hvlt⟩
            · by_cases hve : v = e₀.1
              · refine Or.inr ⟨?_, ?_, e₀.2, ?_, ?_, ?_, ?_⟩
                · rw [hve]
                  exact (list_contains_iff _ _).1 hc
                · rw [hv2, hve, omapGet_set_self]
                · rw [hve]
                  exact List.mem_cons_self _ _
                · rw [hv1, hve, dget_set_self]
                · rw [hb]
                  rfl
                · rw [hve]
                  exact hj
              · exact Or.inl ⟨by rw [hv1, dget_set_ne _ _ hve],
                  by rw [hv2, omapGet_set_ne _ _ hve]⟩
            · have hvne : v ≠ e₀.1 := by
                intro hh
                exact hlnd.1 (List.mem_map.2 ⟨(v, w), hwl, by rw [hh]⟩)
              refine Or.inr ⟨hvU, hvp, w, List.mem_cons_of_mem _ hwl, ?_, ?_, ?_⟩
              · rw [hvd, hcur1]
              · rw [hcur1] at hvs
                exact hvs
              · rw [hcur1, dget_set_ne _ _ hvne] at hvlt
                exact hvlt
          · intro e he heU
            rcases List.mem_cons.1 he with he | he
            · have hene : e.1 ∉ l'.map Prod.fst := by rw [he]; exact hlnd.1
              rcases ih1 e.1 with ⟨hv1, _⟩ | ⟨_, _, w, hwl, _, _, _⟩
              · rw [he] at hv1 ⊢
                rw [hv1, dget_set_self]
                exact jle_refl _
              · exact absurd (List.mem_map.2 ⟨(e.1, w), hwl, rfl⟩) hene
            · have := ih2 e he heU
              rw [hcur1] at this
              exact this
          · intro k hk
            apply ih3
            by_cases hke : k = e₀.1
            · rw [hke, omapGet_set_self]
              rfl
            · rw [omapGet_set_ne _ _ hke]
              exact hk
        · -- comparison fails: no update
          have hd1 : relaxStep U₀ cur (d₀, p₀) e₀ = (d₀, p₀) := by
            simp [relaxStep, hcm, bool_not_true hj]
          obtain ⟨ih1, ih2, ih3⟩ := ih hlnd.2 hlw' d₀ p₀ hd₀
          rw [List.foldl_cons, hd1]
          refine ⟨?_, ?_, ?_⟩
          · intro v
            rcases ih1 v with hv | ⟨hvU, hvp, w, hwl, hvd, hvs, hvlt⟩
            · exact Or.inl hv
            · exact Or.inr ⟨hvU, hvp, w, List.mem_cons_of_mem _ hwl, hvd, hvs, hvlt⟩
          · intro e he heU
            rcases List.mem_cons.1 he with he | he
            · have hene : e.1 ∉ l'.map Prod.fst := by rw [he]; exact hlnd.1
              have hjle : jle (dget d₀ e₀.1) (jadd (dget d₀ cur) e₀.2) = true :=
                not_jlt_iff_jle.1 (bool_not_true hj)
              rcases ih1 e.1 with ⟨hv1, _⟩ | ⟨_, _, w, hwl, _, _, _⟩
              · rw [he]
                rw [he] at hv1
                rw [hv1]
                exact hjle
              · exact absurd (List.mem_map.2 ⟨(e.1, w), hwl, rfl⟩) hene
            · exact ih2 e he heU
          · exact ih3
      · -- the neighbour is already visited: no update
        have hcm' : e₀.1 ∉ U₀ := fun h => hc ((list_contains_iff _ _).2 h)
        have hd1 : relaxStep U₀ cur (d₀, p₀) e₀ = (d₀, p₀) := by
          simp [relaxStep, hcm']
        obtain ⟨ih1, ih2, ih3⟩ := ih hlnd.2 hlw' d₀ p₀ hd₀
        rw [List.foldl_cons, hd1]
        refine ⟨?_, ?_, ?_⟩
        · intro v
          rcases ih1 v with hv | ⟨hvU, hvp, w, hwl, hvd, hvs, hvlt⟩
          · exact Or.inl hv
          · exact Or.inr ⟨hvU, hvp, w, List.mem_cons_of_mem _ hwl, hvd, hvs, hvlt⟩
        · intro e he heU
          rcases List.mem_cons.1 he with he | he
          · exfalso
            rw [he] at heU
            exact hc ((list_contains_iff _ _).2 heU)
          · exact ih2 e he heU
        · exact ih3

/-- One iteration of the Dijkstra loop (select the minimum, relax its
adjacency list, mark it visited) preserves the loop invariant. -/
theorem dijkInv_step {g : WeightedGraph} {s : Key} (hwf : GraphWF g) (hw : NonnegWeights g)
    {h : Key} {rest : List Key} {d : OMap Key JDist} {p : OMap Key Key}
    (inv : DijkInv g s (h :: rest) d p) :
    DijkInv g s ((h :: rest).erase (reduceMin d h rest))
      (relaxAll g (reduceMin d h rest) (h :: rest) d p).1
      (relaxAll g (reduceMin d h rest) (h :: rest) d p).2 := by
  obtain ⟨hnnd, hednd, hadnd, hdom, htgt⟩ := hwf
  set cur := reduceMin d h rest with hcurdef
  have hcm : cur ∈ h :: rest := by
    rcases reduceMin_mem d h rest with h' | h'
    · rw [hcurdef, h']
      exact List.mem_cons_self _ _
    · exact List.mem_cons_of_mem _ h'
  have hmin : ∀ y ∈ h :: rest, jle (dget d cur) (dget d y) = true := reduceMin_le_mem d h rest
  have hadnodup : ((adjList g cur).map Prod.fst).Nodup := adj_nodup hadnd cur
  obtain ⟨spec1, spec2, spec3⟩ :=
    relaxFold_spec (h :: rest) cur (adjList g cur) hadnodup
      (fun e he => adj_nonneg hw he) d p inv.dNonneg
  have hra : relaxAll g cur (h :: rest) d p =
      (adjList g cur).foldl (relaxStep (h :: rest) cur) (d, p) := rfl
  rw [hra]
  set D' := ((adjList g cur).foldl (relaxStep (h :: rest) cur) (d, p)).1 with hD'
  set P' := ((adjList g cur).foldl (relaxStep (h :: rest) cur) (d, p)).2 with hP'
  obtain ⟨hacur, hpcur⟩ : dget D' cur = dget d cur ∧ omapGet P' cur = omapGet p cur := by
    rcases spec1 cur with ⟨h1, h2⟩ | ⟨_, _, w, hwl, _, _, hlt⟩
    · exact ⟨h1, h2⟩
    · exfalso
      rw [jlt_jadd_self_false (dget d cur) (adj_nonneg hw hwl)] at hlt
      exact Bool.false_ne_true hlt
  have hunch : ∀ v, v ∉ (h :: rest) → dget D' v = dget d v ∧ omapGet P' v = omapGet p v := by
    intro v hv
    rcases spec1 v with hleft | ⟨hvU, _, _⟩
    · exact hleft
    · exact absurd hvU hv
  have hnotinE : ∀ x, x ∉ (h :: rest).erase cur → x ≠ cur → x ∉ (h :: rest) := by
    intro x hxe hxc hxm
    exact hxe ((inv.uNodup.mem_erase_iff).2 ⟨hxc, hxm⟩)
  have hcurE : cur ∉ (h :: rest).erase cur := by
    intro hmem
    exact (((inv.uNodup.mem_erase_iff).1 hmem).1) rfl
  refine ⟨?_, ?_, ?_, ?_, ?_, ?_, ?_, ?_, ?_⟩
  · exact fun k hk => inv.uSub k (List.mem_of_mem_erase hk)
  · exact inv.uNodup.erase cur
  · exact fun k hk => spec3 k (inv.dDom k hk)
  · rcases spec1 s with ⟨h1, _⟩ | ⟨_, _, w, hwl, _, hvs, hlt⟩
    · rw [h1]
      exact inv.dStart
    · exfalso
      obtain ⟨b, hb⟩ := Option.isSome_iff_exists.1 hvs
      have hb0 : 0 ≤ b := inv.dNonneg cur b hb
      have hw0 : 0 ≤ w := adj_nonneg hw hwl
      rw [hb, inv.dStart] at hlt
      simp only [jadd, jlt, decide_eq_true_eq] at hlt
      linarith
  · intro v a hva
    rcases spec1 v with ⟨h1, _⟩ | ⟨_, _, w, hwl, hvd, hvs, _⟩
    · rw [h1] at hva
      exact inv.dNonneg v a hva
    · obtain ⟨b, hb⟩ := Option.isSome_iff_exists.1 hvs
      have hb0 : 0 ≤ b := inv.dNonneg cur b hb
      have hw0 : 0 ≤ w := adj_nonneg hw hwl
      rw [hvd, hb] at hva
      simp only [jadd, Option.some.injEq] at hva
      rw [← hva]
      linarith
  · intro x hxn hxe y hye
    have hyu : y ∈ h :: rest := List.mem_of_mem_erase hye
    have hylow : jle (dget d cur) (dget D' y) = true := by
      rcases spec1 y with ⟨h1, _⟩ | ⟨_, _, w, hwl, hyd, _, _⟩
      · rw [h1]
        exact hmin y hyu
      · rw [hyd]
        exact jle_jadd _ (adj_nonneg hw hwl)
    by_cases hxc : x = cur
    · rw [hxc, hacur]
      exact hylow
    · have hxu : x ∉ (h :: rest) := hnotinE x hxe hxc
      rw [(hunch x hxu).1]
      exact jle_trans (inv.ordS x hxn hxu cur hcm) hylow
  · intro x hxn hxe e he
    by_cases hxc : x = cur
    · rw [hxc] at he ⊢
      rw [hacur]
      by_cases heu : e.1 ∈ (h :: rest)
      · exact spec2 e he heu
      · rw [(hunch e.1 heu).1]
        exact jle_trans (inv.ordS e.1 (adj_target htgt he) heu cur hcm)
          (jle_jadd _ (adj_nonneg hw he))
    · have hxu : x ∉ (h :: rest) := hnotinE x hxe hxc
      rw [(hunch x hxu).1]
      rcases spec1 e.1 with ⟨h1, _⟩ | ⟨_, _, w, hwl, hvd, _, hlt⟩
      · rw [h1]
        exact inv.relaxed x hxn hxu e he
      · have : jle (dget D' e.1) (dget d e.1) = true := by
          rw [hvd]
          exact jlt_imp_jle hlt
        exact jle_trans this (inv.relaxed x hxn hxu e he)
  · intro v q hq
    rcases spec1 v with ⟨hvd, hvp⟩ | ⟨hvU, hvp, w, hwl, hvd, hvs, _⟩
    · rw [hvp] at hq
      obtain ⟨hqn, hqu, w, hw1, hw2, hw3⟩ := inv.prevInv v q hq
      refine ⟨hqn, fun hmem => hqu (List.mem_of_mem_erase hmem), w, hw1, ?_, ?_⟩
      · rw [hvd, (hunch q hqu).1]
        exact hw2
      · rw [(hunch q hqu).1]
        exact hw3
    · rw [hvp] at hq
      injection hq with hq
      rw [← hq]
      refine ⟨inv.uSub cur hcm, hcurE, w, omapGet_eq_of_mem (adj_nodup hadnd cur) hwl, ?_, ?_⟩
      · rw [hvd, hacur]
      · rw [hacur]
        exact hvs
  · intro v a hva
    have hlerase : ((h :: rest).erase cur).length = (h :: rest).length - 1 :=
      List.length_erase_of_mem hcm
    rcases spec1 v with ⟨hvd, hvp⟩ | ⟨hvU, hvp, w, hwl, hvd, hvs, _⟩
    · rw [hvd] at hva
      obtain ⟨ch, hch, hhead, hwalk, hcost, hlen⟩ := inv.chainInv v a hva
      refine ⟨ch, prevChain_congr hch ?_, hhead, hwalk, hcost, ?_⟩
      · intro x hx
        rcases prevChain_mem hch x hx with hx' | ⟨y, hy⟩
        · rw [hx']
          exact hvp
        · exact (hunch x (inv.prevInv y x hy).2.1).2
      · have h1 : 1 ≤ (h :: rest).length := by simp
        omega
    · obtain ⟨b, hb⟩ := Option.isSome_iff_exists.1 hvs
      obtain ⟨chc, hchc, hheadc, hwalkc, hcostc, hlenc⟩ := inv.chainInv cur b hb
      have hstable : PrevChain P' cur chc := by
        refine prevChain_congr hchc ?_
        intro x hx
        rcases prevChain_mem hchc x hx with hx' | ⟨y, hy⟩
        · rw [hx']
          exact hpcur
        · exact (hunch x (inv.prevInv y x hy).2.1).2
      have hedge : omapGet (adjList g cur) v = some w :=
        omapGet_eq_of_mem (adj_nodup hadnd cur) hwl
      have hlook : lookup2 g cur v = some w := by
        rw [lookup2_eq_adj]
        exact hedge
      refine ⟨chc ++ [v], .step v cur chc hvp hstable, ?_, ?_, ?_, ?_⟩
      · cases chc with
        | nil => exact absurd rfl (prevChain_ne_nil hchc)
        | cons c0 cs => exact hheadc
      · exact isWalk_append_one hwalkc (prevChain_last hchc) (by rw [hlook]; rfl)
      · rw [walkCost_append_one (prevChain_last hchc), hcostc, hlook]
        rw [hvd, hb] at hva
        simp only [jadd, Option.some.injEq] at hva
        simp [← hva]
      · simp only [List.length_append, List.length_singleton]
        have h1 : 1 ≤ (h :: rest).length := by simp
        omega

theorem dijkInv_init (g : WeightedGraph) (s : Key) (hwf : GraphWF g) :
    DijkInv g s (okeys g.nodes) (initDistances g s) [] := by
  obtain ⟨hnnd, _, _, _, _⟩ := hwf
  refine ⟨fun k hk => hk, hnnd, initDistances_dom g s, ?_, ?_, ?_, ?_, ?_, ?_⟩
  · rw [dget_init, if_pos rfl]
  · intro v a hv
    rw [dget_init] at hv
    by_cases hvs : v = s
    · rw [if_pos hvs] at hv
      injection hv with hv
      rw [← hv]
    · rw [if_neg hvs] at hv
      exact absurd hv (by simp)
  · intro x hx hxn
    exact absurd hx hxn
  · intro x hx hxn
    exact absurd hx hxn
  · intro v q hq
    exact absurd hq (by simp [omapGet])
  · intro v a hv
    rw [dget_init] at hv
    by_cases hvs : v = s
    · rw [if_pos hvs] at hv
      injection hv with hv
      rw [hvs]
      refine ⟨[s], .base s rfl, rfl, trivial, ?_, ?_⟩
      · rw [← hv]
        rfl
      · simp [Nat.add_comm]
    · rw [if_neg hvs] at hv
      exact absurd hv (by simp)

theorem dijkstraLoop_post {g : WeightedGraph} {s : Key} (hwf : GraphWF g)
    (hw : NonnegWeights g) (stop? : Option Key) :
    ∀ (fuel : Nat) (u : List Key) (d : OMap Key JDist) (p : OMap Key Key),
      u.length ≤ fuel → DijkInv g s u d p →
      ∃ u', (∀ k ∈ u', k ∈ u) ∧
        DijkInv g s u' (dijkstraLoop stop? g fuel u d p).1
          (dijkstraLoop stop? g fuel u d p).2.1 ∧
        (u' = [] ∨ ∃ h' rest', u' = h' :: rest' ∧
          stop? = some (reduceMin (dijkstraLoop stop? g fuel u d p).1 h' rest')) := by
  intro fuel
  induction fuel with
  | zero =>
      intro u d p hlen hinv
      cases u with
      | nil => exact ⟨[], by simp, hinv, Or.inl rfl⟩
      | cons a l => simp at hlen
  | succ n ih =>
      intro u d p hlen hinv
      cases u with
      | nil => exact ⟨[], by simp, hinv, Or.inl rfl⟩
      | cons h rest =>
          by_cases hs : stop? = some (reduceMin d h rest)
          · have hres : dijkstraLoop stop? g (n + 1) (h :: rest) d p = (d, p, g) := by
              show (if stop? = some (reduceMin d h rest) then (d, p, g) else _) = _
              rw [if_pos hs]
            rw [hres]
            exact ⟨h :: rest, fun k hk => hk, hinv, Or.inr ⟨h, rest, rfl, hs⟩⟩
          · have hres : dijkstraLoop stop? g (n + 1) (h :: rest) d p =
                dijkstraLoop stop? g n ((h :: rest).erase (reduceMin d h rest))
                  (relaxAll g (reduceMin d h rest) (h :: rest) d p).1
                  (relaxAll g (reduceMin d h rest) (h :: rest) d p).2 := by
              show (if stop? = some (reduceMin d h rest) then (d, p, g) else _) = _
              rw [if_neg hs]
            rw [hres]
            have hcm : reduceMin d h rest ∈ h :: rest := by
              rcases reduceMin_mem d h rest with h' | h'
              · rw [h']
                exact List.mem_cons_self _ _
              · exact List.mem_cons_of_mem _ h'
            have hlen' : ((h :: rest).erase (reduceMin d h rest)).length ≤ n := by
              rw [List.length_erase_of_mem hcm]
              simp only [List.length_cons] at hlen ⊢
              omega
            obtain ⟨u', hsub, hinv', hout⟩ := ih _ _ _ hlen' (dijkInv_step hwf hw hinv)
            exact ⟨u', fun k hk => List.mem_of_mem_erase (hsub k hk), hinv', hout⟩

/-- In any invariant state, the minimum unvisited tentative distance bounds
from below the cost of every walk from the source that ends at an unvisited
key (the classic cut argument behind the early exit). -/
theorem min_walk_bound {g : WeightedGraph} {s : Key} (htgt : TargetsExist g)
    (hw : NonnegWeights g) {u : List Key} {d : OMap Key JDist} {p : OMap Key Key}
    (inv : DijkInv g s u d p) {m : Key}
    (hm : ∀ y ∈ u, jle (dget d m) (dget d y) = true) :
    ∀ (ch : List Key) (x : Key) (c : ℚ) (z : Key), IsWalk g (x :: ch) →
      x ∈ okeys g.nodes → jle (dget d x) (some c) = true →
      (x :: ch).getLast? = some z → z ∈ u →
      jle (dget d m) (some (c + walkCost g (x :: ch))) = true := by
  intro ch
  induction ch with
  | nil =>
      intro x c z _ _ hxc hlast hzu
      simp only [List.getLast?_singleton, Option.some.injEq] at hlast
      rw [← hlast] at hzu
      have h1 : jle (dget d m) (some c) = true := jle_trans (hm x hzu) hxc
      have : walkCost g [x] = 0 := rfl
      rw [this, add_zero]
      exact h1
  | cons y ch' ih =>
      intro x c z hwalk hxn hxc hlast hzu
      obtain ⟨h1, h2⟩ := hwalk
      obtain ⟨w, hw2⟩ := Option.isSome_iff_exists.1 h1
      have hw0 : 0 ≤ w := lookup2_nonneg hw hw2
      have hcost : walkCost g (x :: y :: ch') = w + walkCost g (y :: ch') := by
        simp [walkCost, hw2]
      by_cases hxu : x ∈ u
      · have hmc : jle (dget d m) (some c) = true := jle_trans (hm x hxu) hxc
        have hcost0 : 0 ≤ walkCost g (y :: ch') := walkCost_nonneg hw _ h2
        rw [hcost]
        exact jle_some_mono (by linarith) hmc
      · have hrel : jle (dget d y) (jadd (dget d x) w) = true := by
          have hmem : (y, w) ∈ adjList g x := by
            apply omapGet_mem
            rw [← lookup2_eq_adj]
            exact hw2
          exact inv.relaxed x hxn hxu (y, w) hmem
        have hyc : jle (dget d y) (some (c + w)) = true :=
          jle_trans hrel (by
            have := jadd_mono w hxc
            simpa [jadd] using this)
        have hyn : y ∈ okeys g.nodes := lookup2_target htgt hw2
        have hlast' : (y :: ch').getLast? = some z := by
          rw [List.getLast?_cons_cons] at hlast
          exact hlast
        have := ih y (c + w) z h2 hyn hyc hlast' hzu
        rw [hcost, show c + (w + walkCost g (y :: ch')) = c + w + walkCost g (y :: ch')
          by ring]
        exact this

/-- After the full run (empty unvisited set) every key's tentative distance
bounds from below the cost of every walk from the source to it. -/
theorem settled_walk_bound {g : WeightedGraph} {s : Key} (htgt : TargetsExist g)
    (hw : NonnegWeights g) {d : OMap Key JDist} {p : OMap Key Key}
    (inv : DijkInv g s [] d p) :
    ∀ (ch : List Key) (x : Key) (c : ℚ) (z : Key), IsWalk g (x :: ch) →
      x ∈ okeys g.nodes → jle (dget d x) (some c) = true →
      (x :: ch).getLast? = some z →
      jle (dget d z) (some (c + walkCost g (x :: ch))) = true := by
  intro ch
  induction ch with
  | nil =>
      intro x c z _ _ hxc hlast
      simp only [List.getLast?_singleton, Option.some.injEq] at hlast
      rw [← hlast]
      have : walkCost g [x] = 0 := rfl
      rw [this, add_zero]
      exact hxc
  | cons y ch' ih =>
      intro x c z hwalk hxn hxc hlast
      obtain ⟨h1, h2⟩ := hwalk
      obtain ⟨w, hw2⟩ := Option.isSome_iff_exists.1 h1
      have hcost : walkCost g (x :: y :: ch') = w + walkCost g (y :: ch') := by
        simp [walkCost, hw2]
      have hrel : jle (dget d y) (jadd (dget d x) w) = true := by
        have hmem : (y, w) ∈ adjList g x := by
          apply omapGet_mem
          rw [← lookup2_eq_adj]
          exact hw2
        exact inv.relaxed x hxn (by simp) (y, w) hmem
      have hyc : jle (dget d y) (some (c + w)) = true :=
        jle_trans hrel (by
          have := jadd_mono w hxc
          simpa [jadd] using this)
      have hyn : y ∈ okeys g.nodes := lookup2_target htgt hw2
      have hlast' : (y :: ch').getLast? = some z := by
        rw [List.getLast?_cons_cons] at hlast
        exact hlast
      have := ih y (c + w) z h2 hyn hyc hlast'
      rw [hcost, show c + (w + walkCost g (y :: ch')) = c + w + walkCost g (y :: ch')
        by ring]
      exact this

theorem jle_some_iff {a b : ℚ} : jle (some a) (some b) = true ↔ a ≤ b := by
  simp [jle]

theorem nodeExist_mem_okeys {g : WeightedGraph} {k : Key} (h : g.nodeExist k = true) :
    k ∈ okeys g.nodes := by
  rw [mem_okeys_iff]
  simpa [WeightedGraph.nodeExist, omapHas] using h

/-- The distance-bound part of the `findCheapestPath` run: at exit, the
destination's tentative distance bounds below the cost of every path from
`start` to `end`, and any finite tentative distance is witnessed by the
predecessor chain. -/
theorem cheapest_run_spec {g : WeightedGraph} (hwf : GraphWF g) (hw : NonnegWeights g)
    {s t : Key} (hs : g.nodeExist s = true) (ht : g.nodeExist t = true) :
    ∀ q, IsPathFrom g s t q →
      jle (dget (dijkstraLoop (some t) g (okeys g.nodes).length (okeys g.nodes)
        (initDistances g s) []).1 t) (some (walkCost g q)) = true := by
  have htgt : TargetsExist g := hwf.2.2.2.2
  have hsn : s ∈ okeys g.nodes := nodeExist_mem_okeys hs
  obtain ⟨u', hsub, hinv, hexit⟩ :=
    dijkstraLoop_post hwf hw (some t) (okeys g.nodes).length (okeys g.nodes)
      (initDistances g s) [] (le_refl _) (dijkInv_init g s hwf)
  intro q hq
  obtain ⟨hqw, hqh, hql⟩ := hq
  cases q with
  | nil => exact absurd hqh (by simp)
  | cons x ch =>
      have hxs : x = s := by
        simp only [List.head?_cons, Option.some.injEq] at hqh
        exact hqh
      rw [hxs] at hqw hql ⊢
      have hsle : jle (dget (dijkstraLoop (some t) g (okeys g.nodes).length (okeys g.nodes)
          (initDistances g s) []).1 s) (some 0) = true := by
        rw [hinv.dStart]
        exact jle_refl _
      rcases hexit with hU | ⟨h', rest', hu', hmin⟩
      · rw [hU] at hinv
        have := settled_walk_bound htgt hw hinv ch s 0 t hqw hsn hsle hql
        rwa [zero_add] at this
      · injection hmin with hmin
        have htu : t ∈ u' := by
          rw [hu']
          rw [hmin]
          rcases reduceMin_mem (dijkstraLoop (some t) g (okeys g.nodes).length
            (okeys g.nodes) (initDistances g s) []).1 h' rest' with h1 | h1
          · rw [h1]
            exact List.mem_cons_self _ _
          · exact List.mem_cons_of_mem _ h1
        have hminAll : ∀ y ∈ u', jle (dget (dijkstraLoop (some t) g (okeys g.nodes).length
            (okeys g.nodes) (initDistances g s) []).1 t)
            (dget (dijkstraLoop (some t) g (okeys g.nodes).length
              (okeys g.nodes) (initDistances g s) []).1 y) = true := by
          intro y hy
          rw [hu'] at hy
          have hred := reduceMin_le_mem (dijkstraLoop (some t) g (okeys g.nodes).length
            (okeys g.nodes) (initDistances g s) []).1 h' rest' y hy
          rw [← hmin] at hred
          exact hred
        have := min_walk_bound htgt hw hinv hminAll ch s 0 t hqw hsn hsle hql htu
        rwa [zero_add] at this

/-- C1: on every well-formed graph of at most 8 nodes with non-negative
weights and any two existing keys with some path between them,
`findCheapestPath` returns a path from start to end whose total edge weight
is the minimum over all such paths; and on the concrete §8 scenario graph,
`findCheapestPath(A,C)` is `[A,B,C]` and `findClosestNReady(A,1)` is `[B]`. -/
theorem findCheapestPath_optimal (g : WeightedGraph) (hwf : GraphWF g)
    (hw : NonnegWeights g) (hsize : g.nodes.length ≤ 8) (s t : Key)
    (hs : g.nodeExist s = true) (ht : g.nodeExist t = true)
    (p0 : List Key) (hp0 : IsPathFrom g s t p0) :
    (∃ r, (findCheapestPath g s t).1 = some r ∧ IsPathFrom g s t r ∧
      ∀ q, IsPathFrom g s t q → walkCost g r ≤ walkCost g q) ∧
    (findCheapestPath gABC "A" "C").1 = some ["A", "B", "C"] ∧
    (findClosestNReady gABC "A" 1).1 = some ["B"] := by
  refine ⟨?_, by with_unfolding_all rfl, by with_unfolding_all rfl⟩
  have hguard : (!(g.nodeExist s) || !(g.nodeExist t)) = false := by simp [hs, ht]
  have hfc : (findCheapestPath g s t).1 =
      some ((walkBack (dijkstraLoop (some t) g (okeys g.nodes).length (okeys g.nodes)
        (initDistances g s) []).2.1 (okeys g.nodes).length t).reverse) := by
    simp [findCheapestPath, hguard]
  obtain ⟨u', hsub, hinv, hexit⟩ :=
    dijkstraLoop_post hwf hw (some t) (okeys g.nodes).length (okeys g.nodes)
      (initDistances g s) [] (le_refl _) (dijkInv_init g s hwf)
  have hopt := cheapest_run_spec hwf hw hs ht
  rcases hdt : dget (dijkstraLoop (some t) g (okeys g.nodes).length (okeys g.nodes)
      (initDistances g s) []).1 t with _ | a
  · exfalso
    have := hopt p0 hp0
    rw [hdt] at this
    simp [jle] at this
  · obtain ⟨ch, hch, hhead, hwalk, hcost, hlen⟩ := hinv.chainInv t a hdt
    have hchlen : ch.length ≤ (okeys g.nodes).length + 1 := by omega
    have hwb : (walkBack (dijkstraLoop (some t) g (okeys g.nodes).length (okeys g.nodes)
        (initDistances g s) []).2.1 (okeys g.nodes).length t).reverse = ch :=
      walkBack_eq_chain hch (okeys g.nodes).length hchlen
    refine ⟨ch, by rw [hfc, hwb], ⟨hwalk, hhead, prevChain_last hch⟩, ?_⟩
    intro q hq
    have := hopt q hq
    rw [hdt] at this
    rw [hcost]
    exact jle_some_iff.1 this

/-- Witness: `findCheapestPath_optimal` on the concrete §8 scenario graph,
with the direct edge A-C as the comparison path. -/
theorem findCheapestPath_optimal_witness :
    (∃ r, (findCheapestPath gABC "A" "C").1 = some r ∧ IsPathFrom gABC "A" "C" r ∧
      ∀ q, IsPathFrom gABC "A" "C" q → walkCost gABC r ≤ walkCost gABC q) ∧
    (findCheapestPath gABC "A" "C").1 = some ["A", "B", "C"] ∧
    (findClosestNReady gABC "A" 1).1 = some ["B"] :=
  findCheapestPath_optimal gABC (by decide) (by decide) (by decide) "A" "C"
    (by decide) (by decide) ["A", "C"] ⟨⟨by with_unfolding_all rfl, trivial⟩, rfl, rfl⟩

theorem closest_inv (g : WeightedGraph) (s : Key) (hwf : GraphWF g)
    (hw : NonnegWeights g) :
    DijkInv g s [] (closestDistances g s)
      (dijkstraLoop none g (okeys g.nodes).length (okeys g.nodes)
        (initDistances g s) []).2.1 := by
  obtain ⟨u', _, hinv, hexit⟩ :=
    dijkstraLoop_post hwf hw none (okeys g.nodes).length (okeys g.nodes)
      (initDistances g s) [] (le_refl _) (dijkInv_init g s hwf)
  rcases hexit with hU | ⟨h', rest', _, habs⟩
  · rw [hU] at hinv
    exact hinv
  · exact absurd habs (by simp)

/-- C6 (amended): `findClosestNReady(start, n)` returns at most `n` keys,
each an existing node satisfying the ready predicate, in non-decreasing
order of the computed tentative distance — which is exactly the
single-source shortest-path distance: every finite value is attained by a
path from `start` and bounds below the cost of every such path.  `start`
itself carries distance 0 and, when ready, appears among the sort
candidates.  Ties are resolved by node-map insertion order (the sort is
stable), so `start` heads the result only when no other ready key ties it
at distance 0 — not unconditionally, as the original claim states. -/
theorem findClosestNReady_spec (g : WeightedGraph) (hwf : GraphWF g)
    (hw : NonnegWeights g) (s : Key) (hs : g.nodeExist s = true) (n : Nat) :
    ∃ r, (findClosestNReady g s n).1 = some r ∧
      r.length ≤ n ∧
      (∀ k ∈ r, ∃ m, omapGet g.nodes k = some m ∧ m.isReadyForPickup = true) ∧
      r.Pairwise (fun a b => jle (dget (closestDistances g s) a)
        (dget (closestDistances g s) b) = true) ∧
      (∀ v ∈ okeys g.nodes,
        (∀ a, dget (closestDistances g s) v = some a →
          ∃ q, IsPathFrom g s v q ∧ walkCost g q = a) ∧
        (∀ q, IsPathFrom g s v q →
          jle (dget (closestDistances g s) v) (some (walkCost g q)) = true)) ∧
      dget (closestDistances g s) s = some 0 ∧
      ((∃ m, omapGet g.nodes s = some m ∧ m.isReadyForPickup = true) →
        s ∈ ((g.nodes.filter (fun kv => kv.2.isReadyForPickup)).insertionSort
          (readyLE (closestDistances g s))).map Prod.fst) ∧
      ((∃ m, omapGet g.nodes s = some m ∧ m.isReadyForPickup = true) → 1 ≤ n →
        (∀ k ∈ okeys g.nodes, k ≠ s → dget (closestDistances g s) k ≠ some 0) →
        ∀ r0, r.head? = some r0 → r0 = s) := by
  have htgt : TargetsExist g := hwf.2.2.2.2
  have hnnd : (okeys g.nodes).Nodup := hwf.1
  have hinv := closest_inv g s hwf hw
  have hsn : s ∈ okeys g.nodes := nodeExist_mem_okeys hs
  haveI htr : IsTrans (Key × NodeMetadata) (readyLE (closestDistances g s)) :=
    ⟨fun a b c hab hbc => jle_trans hab hbc⟩
  haveI hto : IsTotal (Key × NodeMetadata) (readyLE (closestDistances g s)) :=
    ⟨fun a b => jle_total _ _⟩
  have hres : (findClosestNReady g s n).1 =
      some ((((g.nodes.filter (fun kv => kv.2.isReadyForPickup)).insertionSort
        (readyLE (closestDistances g s))).take n).map (fun kv => kv.1)) := by
    show (if (!(g.nodeExist s)) = true then ((none : Option (List Key)), g) else _).1 = _
    rw [if_neg (by simp [hs])]
    rfl
  have hsorted := List.sorted_insertionSort (readyLE (closestDistances g s))
    (g.nodes.filter (fun kv => kv.2.isReadyForPickup))
  have hperm := List.perm_insertionSort (readyLE (closestDistances g s))
    (g.nodes.filter (fun kv => kv.2.isReadyForPickup))
  refine ⟨_, hres, ?_, ?_, ?_, ?_, hinv.dStart, ?_, ?_⟩
  · rw [List.length_map]
    exact le_trans (List.length_take_le _ _) (le_refl _)
  · intro k hk
    rcases List.mem_map.1 hk with ⟨kv, hkv, hkvk⟩
    have hkvs : kv ∈ (g.nodes.filter (fun kv => kv.2.isReadyForPickup)).insertionSort
        (readyLE (closestDistances g s)) :=
      (List.take_sublist _ _).mem hkv
    have hkvf := hperm.mem_iff.1 hkvs
    rcases List.mem_filter.1 hkvf with ⟨hkvn, hkvr⟩
    exact ⟨kv.2, by rw [← hkvk]; exact omapGet_eq_of_mem hnnd (by
      rcases kv with ⟨k1, m1⟩
      exact hkvn), hkvr⟩
  · apply List.pairwise_map.2
    exact List.Pairwise.sublist (List.take_sublist _ _) hsorted
  · intro v _hv
    constructor
    · intro a ha
      obtain ⟨ch, hch, hhead, hwalk, hcost, _⟩ := hinv.chainInv v a ha
      exact ⟨ch, ⟨hwalk, hhead, prevChain_last hch⟩, hcost⟩
    · intro q hq
      obtain ⟨hqw, hqh, hql⟩ := hq
      cases q with
      | nil => exact absurd hqh (by simp)
      | cons x ch =>
          have hxs : x = s := by
            simp only [List.head?_cons, Option.some.injEq] at hqh
            exact hqh
          rw [hxs] at hqw hql ⊢
          have hsle : jle (dget (closestDistances g s) s) (some 0) = true := by
            rw [hinv.dStart]
            exact jle_refl _
          have := settled_walk_bound htgt hw hinv ch s 0 v hqw hsn hsle hql
          rwa [zero_add] at this
  · intro ⟨ms, hms, hmsr⟩
    refine List.mem_map.2 ⟨(s, ms), ?_, rfl⟩
    exact hperm.mem_iff.2 (List.mem_filter.2 ⟨omapGet_mem hms, hmsr⟩)
  · intro ⟨ms, hms, hmsr⟩ hn1 hnotie r0 hr0
    have hsmem : (s, ms) ∈ (g.nodes.filter (fun kv => kv.2.isReadyForPickup)).insertionSort
        (readyLE (closestDistances g s)) :=
      hperm.mem_iff.2 (List.mem_filter.2 ⟨omapGet_mem hms, hmsr⟩)
    rcases hcs : (g.nodes.filter (fun kv => kv.2.isReadyForPickup)).insertionSort
        (readyLE (closestDistances g s)) with _ | ⟨c0, cs⟩
    · rw [hcs] at hsmem
      exact absurd hsmem (by simp)
    · obtain ⟨m, hnm⟩ := Nat.exists_eq_add_of_le hn1
      have htake : ((c0 :: cs).take n).map (fun (kv : Key × NodeMetadata) => kv.1) =
          c0.1 :: (cs.take m).map (fun kv => kv.1) := by
        rw [hnm, Nat.add_comm, List.take_succ_cons, List.map_cons]
      rw [hcs, htake] at hr0
      simp only [List.head?_cons, Option.some.injEq] at hr0
      rw [← hr0]
      -- show the head key is s
      have hc0f : c0 ∈ g.nodes.filter (fun kv => kv.2.isReadyForPickup) := by
        have : c0 ∈ (g.nodes.filter (fun kv => kv.2.isReadyForPickup)).insertionSort
            (readyLE (closestDistances g s)) := by
          rw [hcs]
          exact List.mem_cons_self _ _
        exact hperm.mem_iff.1 this
      have hc0n : c0.1 ∈ okeys g.nodes := by
        rcases List.mem_filter.1 hc0f with ⟨hc0n, _⟩
        exact List.mem_map.2 ⟨c0, hc0n, rfl⟩
      rw [hcs] at hsmem
      rcases List.mem_cons.1 hsmem with hsc | hsc
      · rw [← hsc]
      · have hpw := hsorted
        rw [hcs] at hpw
        have hle : readyLE (closestDistances g s) c0 (s, ms) :=
          (List.pairwise_cons.1 hpw).1 (s, ms) hsc
        unfold readyLE at hle
        rw [hinv.dStart] at hle
        by_contra hc0s
        rcases hd0 : dget (closestDistances g s) c0.1 with _ | a
        · rw [hd0] at hle
          simp [jle] at hle
        · rw [hd0] at hle
          have ha0 : a ≤ 0 := jle_some_iff.1 hle
          have ha0' : 0 ≤ a := hinv.dNonneg c0.1 a hd0
          have : dget (closestDistances g s) c0.1 = some 0 := by
            rw [hd0]
            congr 1
            linarith
          exact hnotie c0.1 hc0n hc0s this

/-- Counterexample to the original C6 tie claim: on `gTie` both ready keys
sit at distance 0 from `"s"`, yet the stable sort keeps the node-map
insertion order, and `findClosestNReady("s", 2)` returns `["y", "s"]` —
`start` does not rank first among ties. -/
theorem closest_tie_counterexample :
    (findClosestNReady gTie "s" 2).1 = some ["y", "s"] ∧
    dget (closestDistances gTie "s") "y" = some 0 ∧
    dget (closestDistances gTie "s") "s" = some 0 ∧
    (["y", "s"] : List Key).head? ≠ some "s" := by
  refine ⟨by with_unfolding_all rfl, by with_unfolding_all rfl,
    by with_unfolding_all rfl, by decide⟩

/-- Witness: `findClosestNReady_spec` on the scenario graph from ready node
"B" (no zero-distance ties there). -/
theorem findClosestNReady_spec_witness :
    ∃ r, (findClosestNReady gABC "B" 2).1 = some r ∧
      r.length ≤ 2 ∧
      (∀ k ∈ r, ∃ m, omapGet gABC.nodes k = some m ∧ m.isReadyForPickup = true) ∧
      r.Pairwise (fun a b => jle (dget (closestDistances gABC "B") a)
        (dget (closestDistances gABC "B") b) = true) ∧
      (∀ v ∈ okeys gABC.nodes,
        (∀ a, dget (closestDistances gABC "B") v = some a →
          ∃ q, IsPathFrom gABC "B" v q ∧ walkCost gABC q = a) ∧
        (∀ q, IsPathFrom gABC "B" v q →
          jle (dget (closestDistances gABC "B") v) (some (walkCost gABC q)) = true)) ∧
      dget (closestDistances gABC "B") "B" = some 0 ∧
      ((∃ m, omapGet gABC.nodes "B" = some m ∧ m.isReadyForPickup = true) →
        "B" ∈ ((gABC.nodes.filter (fun kv => kv.2.isReadyForPickup)).insertionSort
          (readyLE (closestDistances gABC "B"))).map Prod.fst) ∧
      ((∃ m, omapGet gABC.nodes "B" = some m ∧ m.isReadyForPickup = true) → 1 ≤ 2 →
        (∀ k ∈ okeys gABC.nodes, k ≠ "B" →
          dget (closestDistances gABC "B") k ≠ some 0) →
        ∀ r0, r.head? = some r0 → r0 = "B") :=
  findClosestNReady_spec gABC (by decide) (by decide) "B" (by decide) 2

theorem relaxStep_reach {g : WeightedGraph} {s cur : Key} {U₀ : List Key}
    {dp : OMap Key JDist × OMap Key Key} {e : Key × ℚ}
    (he : e ∈ adjList g cur) (hinv : ReachInv g s dp.1 dp.2) :
    ReachInv g s (relaxStep U₀ cur dp e).1 (relaxStep U₀ cur dp e).2 := by
  obtain ⟨h1, h2⟩ := hinv
  by_cases hc : U₀.contains e.1 = true
  · by_cases hj : jlt (jadd (dget dp.1 cur) e.2) (dget dp.1 e.1) = true
    · have hcm : e.1 ∈ U₀ := (list_contains_iff _ _).1 hc
      have hstep : relaxStep U₀ cur dp e =
          (omapSet dp.1 e.1 (jadd (dget dp.1 cur) e.2), omapSet dp.2 e.1 cur) := by
        rcases dp with ⟨d₀, p₀⟩
        simp [relaxStep, hcm, hj]
      rw [hstep]
      have hcurSome : ∃ b, dget dp.1 cur = some b := by
        rcases hb : dget dp.1 cur with _ | b
        · rw [hb] at hj
          simp [jadd, jlt] at hj
        · exact ⟨b, rfl⟩
      obtain ⟨b, hb⟩ := hcurSome
      obtain ⟨qc, hqc⟩ := h1 cur b hb
      constructor
      · intro v a hv
        by_cases hve : v = e.1
        · obtain ⟨hqw, hqh, hql⟩ := hqc
          refine ⟨qc ++ [v], ?_, ?_, by simp⟩
          · apply isWalk_append_one hqw hql
            rw [lookup2_eq_adj]
            have hmem2 : e.1 ∈ okeys (adjList g cur) := List.mem_map.2 ⟨e, he, rfl⟩
            rcases homa : omapGet (adjList g cur) e.1 with _ | w
            · rw [omapGet_eq_none_iff] at homa
              exact absurd hmem2 homa
            · rw [hve, homa]
              rfl
          · cases qc with
            | nil => exact absurd hqh (by simp)
            | cons q0 qs => simpa using hqh
        · rw [dget_set_ne _ _ hve] at hv
          exact h1 v a hv
      · intro v q hq
        by_cases hve : v = e.1
        · rw [hve, dget_set_self]
          rw [hb]
          rfl
        · rw [dget_set_ne _ _ hve]
          rw [omapGet_set_ne _ _ hve] at hq
          exact h2 v q hq
    · have hstep : relaxStep U₀ cur dp e = dp := by
        rcases dp with ⟨d₀, p₀⟩
        simp [relaxStep, (list_contains_iff _ _).1 hc, bool_not_true hj]
      rw [hstep]
      exact ⟨h1, h2⟩
  · have hstep : relaxStep U₀ cur dp e = dp := by
      rcases dp with ⟨d₀, p₀⟩
      have : e.1 ∉ U₀ := fun hm => hc ((list_contains_iff _ _).2 hm)
      simp [relaxStep, this]
    rw [hstep]
    exact ⟨h1, h2⟩

theorem relaxAll_reach {g : WeightedGraph} {s cur : Key} {U₀ : List Key}
    {d : OMap Key JDist} {p : OMap Key Key} (hinv : ReachInv g s d p) :
    ReachInv g s (relaxAll g cur U₀ d p).1 (relaxAll g cur U₀ d p).2 := by
  have hgen : ∀ (l : List (Key × ℚ)), (∀ e ∈ l, e ∈ adjList g cur) →
      ∀ dp : OMap Key JDist × OMap Key Key, ReachInv g s dp.1 dp.2 →
      ReachInv g s (l.foldl (relaxStep U₀ cur) dp).1 (l.foldl (relaxStep U₀ cur) dp).2 := by
    intro l
    induction l with
    | nil => exact fun _ dp h => h
    | cons e l' ih =>
        intro hmem dp h
        rw [List.foldl_cons]
        exact ih (fun e' he' => hmem e' (List.mem_cons_of_mem _ he'))
          (relaxStep U₀ cur dp e) (relaxStep_reach (hmem e (List.mem_cons_self _ _)) h)
  exact hgen (adjList g cur) (fun e he => he) (d, p) hinv

theorem dijkstraLoop_reach {g : WeightedGraph} {s : Key} (stop? : Option Key) :
    ∀ (fuel : Nat) (u : List Key) (d : OMap Key JDist) (p : OMap Key Key),
      ReachInv g s d p →
      ReachInv g s (dijkstraLoop stop? g fuel u d p).1
        (dijkstraLoop stop? g fuel u d p).2.1 := by
  intro fuel
  induction fuel with
  | zero =>
      intro u d p h
      cases u <;> exact h
  | succ n ih =>
      intro u d p h
      cases u with
      | nil => exact h
      | cons h0 rest =>
          by_cases hstop : stop? = some (reduceMin d h0 rest)
          · have hres : dijkstraLoop stop? g (n + 1) (h0 :: rest) d p = (d, p, g) := by
              show (if stop? = some (reduceMin d h0 rest) then (d, p, g) else _) = _
              rw [if_pos hstop]
            rw [hres]
            exact h
          · have hres : dijkstraLoop stop? g (n + 1) (h0 :: rest) d p =
                dijkstraLoop stop? g n ((h0 :: rest).erase (reduceMin d h0 rest))
                  (relaxAll g (reduceMin d h0 rest) (h0 :: rest) d p).1
                  (relaxAll g (reduceMin d h0 rest) (h0 :: rest) d p).2 := by
              show (if stop? = some (reduceMin d h0 rest) then (d, p, g) else _) = _
              rw [if_neg hstop]
            rw [hres]
            exact ih _ _ _ (relaxAll_reach h)

theorem reachInv_init (g : WeightedGraph) (s : Key) :
    ReachInv g s (initDistances g s) [] := by
  constructor
  · intro v a hv
    rw [dget_init] at hv
    by_cases hvs : v = s
    · rw [hvs]
      exact ⟨[s], trivial, rfl, rfl⟩
    · rw [if_neg hvs] at hv
      exact absurd hv (by simp)
  · intro v q hq
    exact absurd hq (by simp [omapGet])

/-- C8: when `end` exists but is unreachable from `start` (no path connects
them), `findCheapestPath` returns the one-element sequence `[end]`. -/
theorem findCheapestPath_unreachable (g : WeightedGraph) (s t : Key)
    (hs : g.nodeExist s = true) (ht : g.nodeExist t = true)
    (hunreach : ∀ q, ¬ IsPathFrom g s t q) :
    (findCheapestPath g s t).1 = some [t] := by
  have hguard : (!(g.nodeExist s) || !(g.nodeExist t)) = false := by simp [hs, ht]
  have hfc : (findCheapestPath g s t).1 =
      some ((walkBack (dijkstraLoop (some t) g (okeys g.nodes).length (okeys g.nodes)
        (initDistances g s) []).2.1 (okeys g.nodes).length t).reverse) := by
    simp [findCheapestPath, hguard]
  obtain ⟨hr1, hr2⟩ := dijkstraLoop_reach (g := g) (s := s) (some t)
    (okeys g.nodes).length (okeys g.nodes) (initDistances g s) [] (reachInv_init g s)
  have hdt : dget (dijkstraLoop (some t) g (okeys g.nodes).length (okeys g.nodes)
      (initDistances g s) []).1 t = none := by
    rcases hd : dget (dijkstraLoop (some t) g (okeys g.nodes).length (okeys g.nodes)
        (initDistances g s) []).1 t with _ | a
    · rfl
    · obtain ⟨q, hq⟩ := hr1 t a hd
      exact absurd hq (hunreach q)
  have hpt : omapGet (dijkstraLoop (some t) g (okeys g.nodes).length (okeys g.nodes)
      (initDistances g s) []).2.1 t = none := by
    rcases hp : omapGet (dijkstraLoop (some t) g (okeys g.nodes).length (okeys g.nodes)
        (initDistances g s) []).2.1 t with _ | q
    · rfl
    · have := hr2 t q hp
      rw [hdt] at this
      exact absurd this (by simp)
  rw [hfc]
  rcases hn : (okeys g.nodes).length with _ | m
  · rfl
  · rw [hn] at hpt
    simp [walkBack, hpt]

theorem gDisc_lookup2 (x y : Key) : lookup2 gDisc x y = none := by
  have hedges : gDisc.edges = [("s", []), ("t", [])] := by with_unfolding_all rfl
  simp only [lookup2, hedges, omapGet]
  by_cases h1 : ("s" : Key) = x
  · simp [h1, omapGet]
  · by_cases h2 : ("t" : Key) = x
    · simp [h1, h2, omapGet]
    · simp [h1, h2]

theorem gDisc_unreachable : ∀ q, ¬ IsPathFrom gDisc "s" "t" q := by
  rintro q ⟨hw, hh, hl⟩
  cases q with
  | nil => simp at hh
  | cons x rest =>
      cases rest with
      | nil =>
          simp only [List.head?_cons, Option.some.injEq] at hh
          simp only [List.getLast?_singleton, Option.some.injEq] at hl
          rw [hh] at hl
          exact absurd hl (by decide)
      | cons y rest' =>
          obtain ⟨h1, _⟩ := hw
          rw [gDisc_lookup2] at h1
          simp at h1

/-- Witness: `findCheapestPath_unreachable` on the two-node edgeless graph. -/
theorem findCheapestPath_unreachable_witness :
    (findCheapestPath gDisc "s" "t").1 = some ["t"] :=
  findCheapestPath_unreachable gDisc "s" "t" (by decide) (by decide) gDisc_unreachable
